import Mathlib

/-!
Verification development for the flatsql streaming store / query engine
(C++ sources under src/cpp).  The C++ code is shallowly embedded:

* `Value` mirrors the `std::variant` in `include/flatsql/types.h` (14
  variants in declaration order).  C++ machine integers embed into
  `Int`/`Nat`; the two floating-point variants are modelled as finite
  floats order-embedded into `Int` (NaN is outside the model); strings
  and byte vectors are byte lists (`List Nat`, entries < 256 in any
  state reachable from real bytes, though most theorems do not need
  that bound).
* `compareValues` is translated from `src/btree.cpp`.  The
  `std::string::compare` branch is modelled with libstdc++/glibc
  semantics: `memcmp` over the common length returning the difference
  of the first differing bytes, then the length difference — it is not
  clamped to {-1,0,1}.
* `Store` mirrors `StreamingFlatBufferStore` (`src/storage.cpp`).  The
  byte buffer is modelled by its live prefix `data` (the C++ vector's
  capacity slack beyond `writeOffset_` is never readable through any
  public operation, every read is bounds-checked against
  `writeOffset_`), so `writeOffset` is `data.length`.  The two
  `std::unordered_map`s are association lists with insert-or-assign.
* the B-tree (`src/btree.cpp`) is embedded with explicit fuel because
  its recursion goes through the node map (`nodes_`).
-/

namespace FlatSQL

/-- Little-endian u32 read of 4 consecutive bytes starting at `off`
(`readLE32` in storage.cpp); out-of-range bytes read as 0, callers
bounds-check first exactly as the C++ does. -/
def readLE32At (data : List Nat) (off : Nat) : Nat :=
  data.getD off 0 + 256 * data.getD (off + 1) 0 +
  65536 * data.getD (off + 2) 0 + 16777216 * data.getD (off + 3) 0

/-- Little-endian u32 encoding (`writeLE32` in storage.cpp). -/
def writeLE32 (n : Nat) : List Nat :=
  [n % 256, n / 256 % 256, n / 65536 % 256, n / 16777216 % 256]

/-- The `Value` variant of types.h, constructors in the C++ declaration
order (so `variantIndex` matches `Value::index()`). -/
inductive Value where
  | VNull
  | VBool (b : Bool)
  | VI8 (n : Int)
  | VI16 (n : Int)
  | VI32 (n : Int)
  | VI64 (n : Int)
  | VU8 (n : Nat)
  | VU16 (n : Nat)
  | VU32 (n : Nat)
  | VU64 (n : Nat)
  | VF32 (n : Int)
  | VF64 (n : Int)
  | VStr (s : List Nat)
  | VBytes (b : List Nat)
deriving DecidableEq, Repr

namespace Value

/-- `Value::index()` of the std::variant. -/
def variantIndex : Value → Nat
  | VNull => 0
  | VBool _ => 1
  | VI8 _ => 2
  | VI16 _ => 3
  | VI32 _ => 4
  | VI64 _ => 5
  | VU8 _ => 6
  | VU16 _ => 7
  | VU32 _ => 8
  | VU64 _ => 9
  | VF32 _ => 10
  | VF64 _ => 11
  | VStr _ => 12
  | VBytes _ => 13

end Value

/-- Three-way compare of two integers, returning exactly -1/0/1 (the
`aVal < bVal ? -1 : (aVal > bVal ? 1 : 0)` pattern of the numeric
branch of `compareValues`). -/
def cmp3 (a b : Int) : Int :=
  if a < b then -1 else if b < a then 1 else 0

/-- `memcmp`-style comparison over the common length: difference of the
first differing bytes, 0 if the common prefixes agree (glibc returns
the byte difference; only the sign is specified by C). -/
def memDiff : List Nat → List Nat → Int
  | [], _ => 0
  | _ :: _, [] => 0
  | a :: s, b :: t => if a = b then memDiff s t else (a : Int) - (b : Int)

/-- `std::string::compare` as implemented by libstdc++:
`traits::compare` (= memcmp) over the common length, and if that is 0
the size difference. -/
def strCompare (a b : List Nat) : Int :=
  let d := memDiff a b
  if d = 0 then (a.length : Int) - (b.length : Int) else d

/-- The hand-written byte-vector branch of `compareValues`: byte-wise
loop returning -1/1 at the first difference, then -1/0/1 on sizes. -/
def bytesCompare : List Nat → List Nat → Int
  | [], [] => 0
  | [], _ :: _ => -1
  | _ :: _, [] => 1
  | a :: s, b :: t =>
    if a < b then -1 else if b < a then 1 else bytesCompare s t

/-- Same-variant payload comparison (the `std::visit` body of
`compareValues`); the catch-all 0 is unreachable when both arguments
have the same variant index, mirroring `std::get` succeeding. -/
def samePayloadCmp : Value → Value → Int
  | .VBool x, .VBool y => if x = y then 0 else if x = false then -1 else 1
  | .VI8 x, .VI8 y => cmp3 x y
  | .VI16 x, .VI16 y => cmp3 x y
  | .VI32 x, .VI32 y => cmp3 x y
  | .VI64 x, .VI64 y => cmp3 x y
  | .VU8 x, .VU8 y => cmp3 x y
  | .VU16 x, .VU16 y => cmp3 x y
  | .VU32 x, .VU32 y => cmp3 x y
  | .VU64 x, .VU64 y => cmp3 x y
  | .VF32 x, .VF32 y => cmp3 x y
  | .VF64 x, .VF64 y => cmp3 x y
  | .VStr x, .VStr y => strCompare x y
  | .VBytes x, .VBytes y => bytesCompare x y
  | _, _ => 0

/-- `compareValues` from src/btree.cpp, following its control flow:
`holds_alternative<monostate>` checks first (null sorts first), then
the `index()` comparison for differing variants, then the
`std::visit` payload comparison. -/
def compareValues (a b : Value) : Int :=
  if a = .VNull then (if b = .VNull then 0 else -1)
  else if b = .VNull then 1
  else if a.variantIndex ≠ b.variantIndex then
    (if a.variantIndex < b.variantIndex then -1 else 1)
  else samePayloadCmp a b

/-- Index entry (types.h `IndexEntry`). -/
structure IndexEntry where
  key : Value
  dataOffset : Nat
  dataLength : Nat
  sequence : Nat
deriving DecidableEq, Repr

/-! ## Streaming store (src/storage.cpp) -/

/-- Association-list model of `std::unordered_map` `operator[]`
insert-or-assign; lookup order is irrelevant because keys are unique. -/
def mapInsert (m : List (Nat × Nat)) (k v : Nat) : List (Nat × Nat) :=
  if m.any (fun p => p.1 = k) then
    m.map (fun p => if p.1 = k then (k, v) else p)
  else
    m ++ [(k, v)]

def mapFind (m : List (Nat × Nat)) (k : Nat) : Option Nat :=
  (m.find? (fun p => p.1 = k)).map (fun p => p.2)

/-- `StreamingFlatBufferStore`'s state.  `data` is the live prefix
`data_[0..writeOffset_)`, so the C++ `writeOffset_` is `data.length`. -/
structure Store where
  data : List Nat
  recordCount : Nat
  nextSequence : Nat
  seqToOff : List (Nat × Nat)
  offToSeq : List (Nat × Nat)
deriving DecidableEq, Repr

/-- A freshly constructed store (constructor in storage.cpp; the
initial capacity only affects the unobservable slack). -/
def freshStore : Store :=
  { data := [], recordCount := 0, nextSequence := 1, seqToOff := [], offToSeq := [] }

def Store.writeOffset (s : Store) : Nat := s.data.length

/-- `exportData`: copy of `data_[0 .. writeOffset_)`. -/
def Store.exportData (s : Store) : List Nat := s.data.take s.writeOffset

/-- `extractFileId`: bytes 4-7 of the payload if it has at least 8
bytes, else empty. -/
def extractFileId (payload : List Nat) : List Nat :=
  if payload.length < 8 then [] else (payload.drop 4).take 4

/-- One callback invocation (`IngestCallback`): file id, payload,
assigned sequence and store offset.  The payload length plays the
C++ `length` argument. -/
structure IngestEvent where
  fileId : List Nat
  payload : List Nat
  sequence : Nat
  offset : Nat
deriving DecidableEq, Repr

/-- Append one complete frame (size prefix + payload) to the store:
the shared body of the per-record work in `ingest`, `ingestOne` and
`ingestFlatBuffer` (memcpy at `writeOffset_`, assign
`seq = nextSequence_++`, update both maps, bump `recordCount_`). -/
def Store.appendFrame (s : Store) (frame payload : List Nat) : Store × IngestEvent :=
  let storeOffset := s.data.length
  let seq := s.nextSequence
  ({ data := s.data ++ frame
     recordCount := s.recordCount + 1
     nextSequence := seq + 1
     seqToOff := mapInsert s.seqToOff seq storeOffset
     offToSeq := mapInsert s.offToSeq storeOffset seq },
   { fileId := extractFileId payload, payload := payload,
     sequence := seq, offset := storeOffset })

/-- The `while` loop of `StreamingFlatBufferStore::ingest`, expressed
on the remaining input (the C++ `offset` into the input equals the
number of bytes already consumed).  Returns the new store, the number
of bytes consumed and the callback events in order. -/
def ingestLoop (s : Store) (rem : List Nat) : Store × Nat × List IngestEvent :=
  if h4 : 4 ≤ rem.length then
    let fbSize := readLE32At rem 0
    if hs : 4 + fbSize ≤ rem.length then
      let a := s.appendFrame (rem.take (4 + fbSize)) ((rem.drop 4).take fbSize)
      let r := ingestLoop a.1 (rem.drop (4 + fbSize))
      (r.1, 4 + fbSize + r.2.1, a.2 :: r.2.2)
    else (s, 0, [])
  else (s, 0, [])
termination_by rem.length
decreasing_by simp; omega

/-- `StreamingFlatBufferStore::ingest`. -/
def Store.ingest (s : Store) (input : List Nat) : Store × Nat × List IngestEvent :=
  ingestLoop s input

/-- `StreamingFlatBufferStore::ingestOne` (a single size-prefixed
record).  Both `throw`s happen before any mutation, so the errors pair
the untouched store with the message. -/
def Store.ingestOne (s : Store) (input : List Nat) :
    Store × Except String (Nat × IngestEvent) :=
  if input.length < 4 then
    (s, .error "Data too small for size prefix")
  else
    let fbSize := readLE32At input 0
    if input.length < 4 + fbSize then
      (s, .error "Incomplete FlatBuffer data")
    else
      let (s', ev) := s.appendFrame (input.take (4 + fbSize)) ((input.drop 4).take fbSize)
      (s', .ok (ev.sequence, ev))

/-- `StreamingFlatBufferStore::ingestFlatBuffer` (bare payload; the
store writes its own little-endian size prefix). -/
def Store.ingestBare (s : Store) (payload : List Nat) : Store × Nat × IngestEvent :=
  let (s', ev) := s.appendFrame (writeLE32 payload.length ++ payload) payload
  (s', ev.sequence, ev)

/-- The rebuild scan of `loadAndRebuild`: same frame walk as `ingest`,
but offsets are positions in the input (`off` accumulates the consumed
bytes) and nothing is appended per record — only counters and both
maps are updated (note: the C++ does NOT clear the maps first). -/
def rebuildStep (s : Store) (payload : List Nat) (off : Nat) : Store × IngestEvent :=
  ({ data := s.data
     recordCount := s.recordCount + 1
     nextSequence := s.nextSequence + 1
     seqToOff := mapInsert s.seqToOff s.nextSequence off
     offToSeq := mapInsert s.offToSeq off s.nextSequence },
   { fileId := extractFileId payload, payload := payload,
     sequence := s.nextSequence, offset := off })

def rebuildLoop (s : Store) (rem : List Nat) (off : Nat) :
    Store × Nat × List IngestEvent :=
  if h4 : 4 ≤ rem.length then
    let fbSize := readLE32At rem 0
    if hs : 4 + fbSize ≤ rem.length then
      let a := rebuildStep s ((rem.drop 4).take fbSize) off
      let r := rebuildLoop a.1 (rem.drop (4 + fbSize)) (off + (4 + fbSize))
      (r.1, 4 + fbSize + r.2.1, a.2 :: r.2.2)
    else (s, 0, [])
  else (s, 0, [])
termination_by rem.length
decreasing_by simp; omega

/-- `StreamingFlatBufferStore::loadAndRebuild`: memcpy the input over
the front of the buffer, scan it, and set `writeOffset_` to the number
of consumed bytes.  In the live-prefix model the resulting buffer is
`input.take consumed` (bytes at or beyond `writeOffset_` are
unreadable through every public operation). -/
def Store.loadAndRebuild (s : Store) (input : List Nat) : Store × List IngestEvent :=
  let r := rebuildLoop s input 0
  ({ r.1 with data := input.take r.2.1 }, r.2.2)

/-- `getOffsetForSequence`. -/
def Store.getOffsetForSequence (s : Store) (seq : Nat) : Option Nat :=
  mapFind s.seqToOff seq

/-- `offsetToSequence_` lookup (as used by `readRecordAtOffset`). -/
def Store.getSequenceForOffset (s : Store) (off : Nat) : Option Nat :=
  mapFind s.offToSeq off

/-- `getDataAtOffset`: read the size prefix at `off`, bounds-check both
reads against `writeOffset_`, return the payload.  (The C++ throws
`InvalidOffset` on either check; callers in the query layer treat the
failure as absence, modelled by `none`.) -/
def Store.getDataAtOffset (s : Store) (off : Nat) : Option (List Nat) :=
  if off + 4 > s.writeOffset then none
  else
    let fbSize := readLE32At s.data off
    if off + 4 + fbSize > s.writeOffset then none
    else some ((s.data.drop (off + 4)).take fbSize)

/-! ## Frame-stream facts (claims C2 and C3) -/

/-- A non-empty tail that does not start with a complete frame: fewer
than 4 bytes, or the size prefix announces more bytes than remain. -/
def IsTruncatedTail (t : List Nat) : Prop :=
  t ≠ [] ∧ (t.length < 4 ∨ t.length < 4 + readLE32At t 0)

instance (t : List Nat) : Decidable (IsTruncatedTail t) := by
  unfold IsTruncatedTail; infer_instance

theorem ingestLoop_spec (s : Store) (rem : List Nat) :
    (ingestLoop s rem).1.data = s.data ++ rem.take (ingestLoop s rem).2.1 ∧
    (ingestLoop s rem).2.1 =
      ((ingestLoop s rem).2.2.map (fun e => 4 + e.payload.length)).sum ∧
    (ingestLoop s rem).2.2.map IngestEvent.sequence =
      List.range' s.nextSequence (ingestLoop s rem).2.2.length ∧
    (ingestLoop s rem).1.nextSequence = s.nextSequence + (ingestLoop s rem).2.2.length ∧
    (ingestLoop s rem).1.recordCount = s.recordCount + (ingestLoop s rem).2.2.length ∧
    (ingestLoop s rem).2.1 ≤ rem.length ∧
    (rem.drop (ingestLoop s rem).2.1 = [] ∨ IsTruncatedTail (rem.drop (ingestLoop s rem).2.1)) := by
  induction s, rem using ingestLoop.induct with
  | case1 s rem h4 fbSize hs a ih =>
    rw [ingestLoop]
    rw [dif_pos h4, dif_pos hs]
    simp only [fbSize] at hs ih ⊢
    obtain ⟨ih1, ih2, ih3, ih4, ih5, ih6, ih7⟩ := ih
    set r := ingestLoop a.1 (rem.drop (4 + readLE32At rem 0)) with hr
    have hplen : ((rem.drop 4).take (readLE32At rem 0)).length = readLE32At rem 0 := by
      simp; omega
    have hnext : a.1.nextSequence = s.nextSequence + 1 := rfl
    have hcount : a.1.recordCount = s.recordCount + 1 := rfl
    have hdata : a.1.data = s.data ++ rem.take (4 + readLE32At rem 0) := rfl
    refine ⟨?_, ?_, ?_, ?_, ?_, ?_, ?_⟩
    · show r.1.data = s.data ++ rem.take (4 + readLE32At rem 0 + r.2.1)
      rw [ih1, hdata, List.append_assoc]
      conv_rhs => rw [List.take_add]
    · show 4 + readLE32At rem 0 + r.2.1 =
        (4 + a.2.payload.length) + (r.2.2.map (fun e => 4 + e.payload.length)).sum
      have : a.2.payload = (rem.drop 4).take (readLE32At rem 0) := rfl
      rw [← ih2, this, hplen]
    · show a.2.sequence :: r.2.2.map IngestEvent.sequence =
        List.range' s.nextSequence (r.2.2.length + 1)
      have hseq : a.2.sequence = s.nextSequence := rfl
      rw [ih3, hnext, hseq, List.range'_succ]
    · show r.1.nextSequence = s.nextSequence + (r.2.2.length + 1)
      rw [ih4, hnext]; omega
    · show r.1.recordCount = s.recordCount + (r.2.2.length + 1)
      rw [ih5, hcount]; omega
    · show 4 + readLE32At rem 0 + r.2.1 ≤ rem.length
      have := List.length_drop (4 + readLE32At rem 0) rem
      omega
    · show rem.drop (4 + readLE32At rem 0 + r.2.1) = [] ∨
        IsTruncatedTail (rem.drop (4 + readLE32At rem 0 + r.2.1))
      have hd : rem.drop (4 + readLE32At rem 0 + r.2.1) =
          (rem.drop (4 + readLE32At rem 0)).drop r.2.1 := by
        rw [List.drop_drop]
      rw [hd]; exact ih7
  | case2 s rem h4 fbSize hs =>
    rw [ingestLoop]
    rw [dif_pos h4, dif_neg hs]
    simp only [fbSize] at hs
    refine ⟨by simp, rfl, rfl, by simp, by simp, by simp, Or.inr ⟨?_, ?_⟩⟩
    · show rem.drop 0 ≠ []
      simp only [List.drop_zero]
      intro h; rw [h] at h4; simp at h4
    · show (rem.drop 0).length < 4 ∨ (rem.drop 0).length < 4 + readLE32At (rem.drop 0) 0
      simp only [List.drop_zero]
      omega
  | case3 s rem h4 =>
    rw [ingestLoop, dif_neg h4]
    rcases eq_or_ne rem [] with hrem | hrem
    · refine ⟨by simp, rfl, rfl, by simp, by simp, by simp, Or.inl ?_⟩
      simp [hrem]
    · refine ⟨by simp, rfl, rfl, by simp, by simp, by simp, Or.inr ⟨?_, ?_⟩⟩
      · simpa using hrem
      · left
        simp only [List.drop_zero]
        omega

/-- C2: `ingest` walks the input as `[u32 size LE][size bytes]` frames
from the front; every complete frame is appended to the store and
assigned the next sequence number, the callback events report exactly
those frames in order, the returned byte count is the total length of
the complete frames consumed, and a trailing partial frame is not an
error: it consumes nothing, making the return value strictly less than
the input length. -/
theorem claim_C2_ingest_framing (s : Store) (input : List Nat) :
    (s.ingest input).1.data = s.data ++ input.take (s.ingest input).2.1 ∧
    (s.ingest input).2.1 =
      (((s.ingest input).2.2).map (fun e => 4 + e.payload.length)).sum ∧
    ((s.ingest input).2.2).map IngestEvent.sequence =
      List.range' s.nextSequence ((s.ingest input).2.2).length ∧
    (s.ingest input).1.nextSequence = s.nextSequence + ((s.ingest input).2.2).length ∧
    (s.ingest input).1.recordCount = s.recordCount + ((s.ingest input).2.2).length ∧
    (s.ingest input).2.1 ≤ input.length ∧
    (input.drop (s.ingest input).2.1 = [] ∨ IsTruncatedTail (input.drop (s.ingest input).2.1)) ∧
    (IsTruncatedTail (input.drop (s.ingest input).2.1) →
      (s.ingest input).2.1 < input.length) := by
  obtain ⟨h1, h2, h3, h4, h5, h6, h7⟩ := ingestLoop_spec s input
  refine ⟨h1, h2, h3, h4, h5, h6, h7, fun ht => ?_⟩
  rcases Nat.lt_or_ge (s.ingest input).2.1 input.length with hlt | hge
  · exact hlt
  · exact absurd (List.drop_eq_nil_of_le hge) ht.1

theorem claim_C2_ingest_framing_witness :
    IsTruncatedTail ([2, 0, 0, 0, 7, 7, 9].drop
      (freshStore.ingest [2, 0, 0, 0, 7, 7, 9]).2.1) ∧
    (freshStore.ingest [2, 0, 0, 0, 7, 7, 9]).2.1 < 7 :=
  ⟨by simp [Store.ingest, ingestLoop, readLE32At, IsTruncatedTail],
   (claim_C2_ingest_framing freshStore [2, 0, 0, 0, 7, 7, 9]).2.2.2.2.2.2.2
     (by simp [Store.ingest, ingestLoop, readLE32At, IsTruncatedTail])⟩

/-! ### Rebuild-scan facts (claim C3) -/

/-- Canonical framing of one payload: little-endian length prefix
followed by the payload bytes (the wire format of §6). -/
def encodeFrame (payload : List Nat) : List Nat :=
  writeLE32 payload.length ++ payload

/-- `S` is a concatenation of complete frames. -/
def IsFrameConcat (S : List Nat) : Prop :=
  ∃ ps : List (List Nat),
    (∀ p ∈ ps, p.length < 4294967296) ∧ S = (ps.map encodeFrame).flatten

theorem isFrameConcat_nil : IsFrameConcat [] := ⟨[], by simp, by simp⟩

theorem isFrameConcat_cons {p S} (hp : p.length < 4294967296) (hS : IsFrameConcat S) :
    IsFrameConcat (encodeFrame p ++ S) := by
  obtain ⟨ps, hps, rfl⟩ := hS
  exact ⟨p :: ps, by simpa using ⟨hp, hps⟩, by simp⟩

theorem readLE32At_encodeFrame (p rest : List Nat) (h : p.length < 4294967296) :
    readLE32At (encodeFrame p ++ rest) 0 = p.length := by
  simp only [readLE32At, encodeFrame, writeLE32, List.append_assoc, List.cons_append,
    List.nil_append, List.getD_cons_zero, List.getD_cons_succ]
  omega

/-- With genuine bytes (< 256), the first four input bytes are exactly
the canonical little-endian encoding of the size they denote. -/
theorem take4_eq_writeLE32 (rem : List Nat) (h4 : 4 ≤ rem.length)
    (hb : ∀ b ∈ rem, b < 256) :
    rem.take 4 = writeLE32 (readLE32At rem 0) := by
  match rem, h4 with
  | b0 :: b1 :: b2 :: b3 :: rest, _ =>
    have hb0 : b0 < 256 := hb b0 (by simp)
    have hb1 : b1 < 256 := hb b1 (by simp)
    have hb2 : b2 < 256 := hb b2 (by simp)
    have hb3 : b3 < 256 := hb b3 (by simp)
    simp only [List.take_succ_cons, List.take_zero, writeLE32, readLE32At,
      List.getD_cons_zero, List.getD_cons_succ, List.cons.injEq, and_true]
    refine ⟨?_, ?_, ?_, ?_⟩ <;> omega

/-- Any input byte sequence is read back within the u32 range. -/
theorem readLE32At_lt (rem : List Nat) (hb : ∀ b ∈ rem, b < 256) :
    readLE32At rem 0 < 4294967296 := by
  have h0 : rem.getD 0 0 < 256 := by
    rcases rem with _ | ⟨a, t⟩
    · simp
    · simpa using hb a (by simp)
  have h1 : rem.getD 1 0 < 256 := by
    rcases rem with _ | ⟨a, _ | ⟨b, t⟩⟩
    · simp
    · simp
    · simpa using hb b (by simp)
  have h2 : rem.getD 2 0 < 256 := by
    rcases rem with _ | ⟨a, _ | ⟨b, _ | ⟨c, t⟩⟩⟩
    · simp
    · simp
    · simp
    · simpa using hb c (by simp)
  have h3 : rem.getD 3 0 < 256 := by
    rcases rem with _ | ⟨a, _ | ⟨b, _ | ⟨c, _ | ⟨d, t⟩⟩⟩⟩
    · simp
    · simp
    · simp
    · simp
    · simpa using hb d (by simp)
  simp only [readLE32At, Nat.zero_add]
  omega

theorem rebuildLoop_tail (s : Store) (rem : List Nat) (off : Nat) :
    (rebuildLoop s rem off).2.1 ≤ rem.length ∧
    (rem.drop (rebuildLoop s rem off).2.1 = [] ∨
      IsTruncatedTail (rem.drop (rebuildLoop s rem off).2.1)) := by
  induction s, rem, off using rebuildLoop.induct with
  | case1 s rem off h4 fbSize hs a ih =>
    rw [rebuildLoop]
    rw [dif_pos h4, dif_pos hs]
    simp only [fbSize] at hs ih ⊢
    obtain ⟨ih1, ih2⟩ := ih
    set r := rebuildLoop a.1 (rem.drop (4 + readLE32At rem 0)) (off + (4 + readLE32At rem 0))
      with hr
    constructor
    · show 4 + readLE32At rem 0 + r.2.1 ≤ rem.length
      have := List.length_drop (4 + readLE32At rem 0) rem
      omega
    · show rem.drop (4 + readLE32At rem 0 + r.2.1) = [] ∨
        IsTruncatedTail (rem.drop (4 + readLE32At rem 0 + r.2.1))
      have hd : rem.drop (4 + readLE32At rem 0 + r.2.1) =
          (rem.drop (4 + readLE32At rem 0)).drop r.2.1 := by
        rw [List.drop_drop]
      rw [hd]; exact ih2
  | case2 s rem off h4 fbSize hs =>
    rw [rebuildLoop]
    rw [dif_pos h4, dif_neg hs]
    simp only [fbSize] at hs
    refine ⟨by simp, Or.inr ⟨?_, ?_⟩⟩
    · show rem.drop 0 ≠ []
      simp only [List.drop_zero]
      intro h; rw [h] at h4; simp at h4
    · show (rem.drop 0).length < 4 ∨ (rem.drop 0).length < 4 + readLE32At (rem.drop 0) 0
      simp only [List.drop_zero]
      omega
  | case3 s rem off h4 =>
    rw [rebuildLoop, dif_neg h4]
    rcases eq_or_ne rem [] with hrem | hrem
    · exact ⟨by simp, Or.inl (by simp [hrem])⟩
    · refine ⟨by simp, Or.inr ⟨by simpa using hrem, ?_⟩⟩
      left
      simp only [List.drop_zero]
      omega

theorem rebuildLoop_frames (s : Store) (rem : List Nat) (off : Nat)
    (hb : ∀ b ∈ rem, b < 256) :
    IsFrameConcat (rem.take (rebuildLoop s rem off).2.1) := by
  induction s, rem, off using rebuildLoop.induct with
  | case1 s rem off h4 fbSize hs a ih =>
    rw [rebuildLoop]
    rw [dif_pos h4, dif_pos hs]
    simp only [fbSize] at hs ih ⊢
    set r := rebuildLoop a.1 (rem.drop (4 + readLE32At rem 0)) (off + (4 + readLE32At rem 0))
      with hr
    show IsFrameConcat (rem.take (4 + readLE32At rem 0 + r.2.1))
    have hsplit : rem.take (4 + readLE32At rem 0 + r.2.1) =
        rem.take (4 + readLE32At rem 0) ++ (rem.drop (4 + readLE32At rem 0)).take r.2.1 :=
      List.take_add rem _ _
    have hframe : rem.take (4 + readLE32At rem 0) =
        encodeFrame ((rem.drop 4).take (readLE32At rem 0)) := by
      have h1 : rem.take (4 + readLE32At rem 0) = rem.take 4 ++ (rem.drop 4).take (readLE32At rem 0) :=
        List.take_add rem 4 _
      have h2 : rem.take 4 = writeLE32 (readLE32At rem 0) := take4_eq_writeLE32 rem h4 hb
      have h3 : ((rem.drop 4).take (readLE32At rem 0)).length = readLE32At rem 0 := by
        simp; omega
      rw [h1, h2, encodeFrame, h3]
    rw [hsplit, hframe]
    refine isFrameConcat_cons ?_ (ih ?_)
    · have h3 : ((rem.drop 4).take (readLE32At rem 0)).length = readLE32At rem 0 := by
        simp; omega
      rw [h3]
      exact readLE32At_lt rem hb
    · intro b hbmem
      exact hb b (List.mem_of_mem_drop hbmem)
  | case2 s rem off h4 fbSize hs =>
    rw [rebuildLoop]
    rw [dif_pos h4, dif_neg hs]
    show IsFrameConcat (rem.take 0)
    simp only [List.take_zero]
    exact isFrameConcat_nil
  | case3 s rem off h4 =>
    rw [rebuildLoop, dif_neg h4]
    show IsFrameConcat (rem.take 0)
    simp only [List.take_zero]
    exact isFrameConcat_nil

theorem rebuildLoop_full (ps : List (List Nat))
    (hps : ∀ p ∈ ps, p.length < 4294967296) :
    ∀ (s : Store) (off : Nat),
      (rebuildLoop s ((ps.map encodeFrame).flatten) off).2.1 =
        ((ps.map encodeFrame).flatten).length := by
  induction ps with
  | nil =>
    intro s off
    rw [rebuildLoop]
    simp
  | cons p ps ih =>
    intro s off
    have hp : p.length < 4294967296 := hps p (by simp)
    have hrest : ∀ q ∈ ps, q.length < 4294967296 := fun q hq => hps q (by simp [hq])
    have hflat : ((p :: ps).map encodeFrame).flatten =
        encodeFrame p ++ (ps.map encodeFrame).flatten := by simp
    rw [hflat, rebuildLoop]
    have hlen : (encodeFrame p ++ (ps.map encodeFrame).flatten).length =
        4 + p.length + ((ps.map encodeFrame).flatten).length := by
      simp [encodeFrame, writeLE32]; omega
    have hsz : readLE32At (encodeFrame p ++ (ps.map encodeFrame).flatten) 0 = p.length :=
      readLE32At_encodeFrame p _ hp
    rw [dif_pos (by omega), dif_pos (by rw [hsz]; omega)]
    have hdrop : (encodeFrame p ++ (ps.map encodeFrame).flatten).drop
        (4 + readLE32At (encodeFrame p ++ (ps.map encodeFrame).flatten) 0) =
        (ps.map encodeFrame).flatten := by
      rw [hsz]
      have : (encodeFrame p).length = 4 + p.length := by simp [encodeFrame, writeLE32]; omega
      rw [show 4 + p.length = (encodeFrame p).length from this.symm, List.drop_left]
    show 4 + readLE32At (encodeFrame p ++ (ps.map encodeFrame).flatten) 0 +
        (rebuildLoop _ ((encodeFrame p ++ (ps.map encodeFrame).flatten).drop
          (4 + readLE32At (encodeFrame p ++ (ps.map encodeFrame).flatten) 0))
          (off + (4 + readLE32At (encodeFrame p ++ (ps.map encodeFrame).flatten) 0))).2.1 = _
    rw [hdrop, hsz, ih hrest, hlen]

/-- C3: on a freshly constructed store, `loadAndRebuild S` followed by
`exportData` returns `S` with any trailing truncated record stripped:
the export is a prefix of `S`, that prefix is a concatenation of
complete frames, the dropped tail is empty or truncated, and when `S`
itself is a concatenation of complete frames the export is exactly
`S`. -/
theorem claim_C3_load_rebuild_roundtrip (S : List Nat) (hb : ∀ b ∈ S, b < 256) :
    (freshStore.loadAndRebuild S).1.exportData = S.take (rebuildLoop freshStore S 0).2.1 ∧
    IsFrameConcat ((freshStore.loadAndRebuild S).1.exportData) ∧
    (S.drop (rebuildLoop freshStore S 0).2.1 = [] ∨
      IsTruncatedTail (S.drop (rebuildLoop freshStore S 0).2.1)) ∧
    (IsFrameConcat S → (freshStore.loadAndRebuild S).1.exportData = S) := by
  have hexp : (freshStore.loadAndRebuild S).1.exportData =
      S.take (rebuildLoop freshStore S 0).2.1 := by
    simp [Store.loadAndRebuild, Store.exportData, Store.writeOffset]
  refine ⟨hexp, ?_, (rebuildLoop_tail freshStore S 0).2, fun hfc => ?_⟩
  · rw [hexp]
    exact rebuildLoop_frames freshStore S 0 hb
  · obtain ⟨ps, hps, rfl⟩ := hfc
    rw [hexp, rebuildLoop_full ps hps freshStore 0, List.take_length]

theorem claim_C3_load_rebuild_roundtrip_witness :
    (freshStore.loadAndRebuild [4, 0, 0, 0, 1, 2, 3, 4]).1.exportData =
      [4, 0, 0, 0, 1, 2, 3, 4] :=
  (claim_C3_load_rebuild_roundtrip [4, 0, 0, 0, 1, 2, 3, 4] (by decide)).2.2.2
    ⟨[[1, 2, 3, 4]], by decide, by decide⟩

/-! ### Association-list map lemmas -/

theorem mapFind_map_set (l : List (Nat × Nat)) (k v : Nat)
    (hl : l.any (fun q => q.1 = k)) :
    mapFind (l.map (fun q => if q.1 = k then (k, v) else q)) k = some v := by
  induction l with
  | nil => simp at hl
  | cons p l ih =>
    show mapFind ((if p.1 = k then (k, v) else p) :: l.map _) k = some v
    by_cases hp : p.1 = k
    · rw [if_pos hp]
      unfold mapFind
      rw [List.find?_cons_of_pos _ (by simp)]
      rfl
    · rw [if_neg hp]
      have hl' : l.any (fun q => q.1 = k) := by
        rcases List.any_eq_true.mp hl with ⟨q, hq, hqk⟩
        rcases List.mem_cons.mp hq with rfl | hq'
        · exact absurd (by simpa using hqk) hp
        · exact List.any_eq_true.mpr ⟨q, hq', hqk⟩
      unfold mapFind
      rw [List.find?_cons_of_neg _ (by simpa using hp)]
      exact ih hl'

theorem mapFind_map_set_ne (l : List (Nat × Nat)) (k v k' : Nat) (h : k' ≠ k) :
    mapFind (l.map (fun q => if q.1 = k then (k, v) else q)) k' = mapFind l k' := by
  induction l with
  | nil => rfl
  | cons p l ih =>
    show mapFind ((if p.1 = k then (k, v) else p) :: l.map _) k' = mapFind (p :: l) k'
    by_cases hp : p.1 = k
    · rw [if_pos hp]
      unfold mapFind
      rw [List.find?_cons_of_neg _ (by simp only [decide_eq_true_eq]; omega),
          List.find?_cons_of_neg _ (by simp only [decide_eq_true_eq]; omega)]
      exact ih
    · rw [if_neg hp]
      by_cases hpk : p.1 = k'
      · unfold mapFind
        rw [List.find?_cons_of_pos _ (by simpa using hpk),
            List.find?_cons_of_pos _ (by simpa using hpk)]
      · unfold mapFind
        rw [List.find?_cons_of_neg _ (by simpa using hpk),
            List.find?_cons_of_neg _ (by simpa using hpk)]
        exact ih

theorem mapFind_append_single (l : List (Nat × Nat)) (k v : Nat)
    (hl : ¬ l.any (fun q => q.1 = k)) :
    mapFind (l ++ [(k, v)]) k = some v := by
  induction l with
  | nil =>
    unfold mapFind
    rw [List.nil_append, List.find?_cons_of_pos _ (by simp)]
    rfl
  | cons p l ih =>
    have hp : ¬ (p.1 = k) := by
      intro hpk
      exact hl (List.any_eq_true.mpr ⟨p, by simp, by simpa using hpk⟩)
    have hl' : ¬ l.any (fun q => q.1 = k) := by
      intro hany
      rcases List.any_eq_true.mp hany with ⟨q, hq, hqk⟩
      exact hl (List.any_eq_true.mpr ⟨q, by simp [hq], hqk⟩)
    show mapFind (p :: (l ++ [(k, v)])) k = some v
    unfold mapFind
    rw [List.find?_cons_of_neg _ (by simpa using hp)]
    exact ih hl'

theorem mapFind_append_single_ne (l : List (Nat × Nat)) (k v k' : Nat) (h : k' ≠ k) :
    mapFind (l ++ [(k, v)]) k' = mapFind l k' := by
  induction l with
  | nil =>
    unfold mapFind
    rw [List.nil_append, List.find?_cons_of_neg _ (by simp only [decide_eq_true_eq]; omega)]
  | cons p l ih =>
    show mapFind (p :: (l ++ [(k, v)])) k' = mapFind (p :: l) k'
    by_cases hpk : p.1 = k'
    · unfold mapFind
      rw [List.find?_cons_of_pos _ (by simpa using hpk),
          List.find?_cons_of_pos _ (by simpa using hpk)]
    · unfold mapFind
      rw [List.find?_cons_of_neg _ (by simpa using hpk),
          List.find?_cons_of_neg _ (by simpa using hpk)]
      exact ih

theorem mapFind_mapInsert_self (m : List (Nat × Nat)) (k v : Nat) :
    mapFind (mapInsert m k v) k = some v := by
  unfold mapInsert
  by_cases hm : m.any (fun q => q.1 = k)
  · rw [if_pos hm]; exact mapFind_map_set m k v hm
  · rw [if_neg hm]; exact mapFind_append_single m k v hm

theorem mapFind_mapInsert_ne (m : List (Nat × Nat)) (k v k' : Nat) (h : k' ≠ k) :
    mapFind (mapInsert m k v) k' = mapFind m k' := by
  unfold mapInsert
  by_cases hm : m.any (fun q => q.1 = k)
  · rw [if_pos hm]; exact mapFind_map_set_ne m k v k' h
  · rw [if_neg hm]; exact mapFind_append_single_ne m k v k' h

theorem mem_mapInsert (m : List (Nat × Nat)) (k v : Nat) (p : Nat × Nat)
    (hp : p ∈ mapInsert m k v) : p = (k, v) ∨ p ∈ m := by
  unfold mapInsert at hp
  by_cases hm : m.any (fun q => q.1 = k)
  · rw [if_pos hm] at hp
    obtain ⟨q, hq, hfq⟩ := List.mem_map.mp hp
    by_cases hqk : q.1 = k
    · left; rw [← hfq, if_pos hqk]
    · right; rw [← hfq, if_neg hqk]; exact hq
  · rw [if_neg hm] at hp
    rcases List.mem_append.mp hp with hin | hin
    · right; exact hin
    · left; simpa using hin

theorem mapFind_some_mem (m : List (Nat × Nat)) (k v : Nat)
    (h : mapFind m k = some v) : (k, v) ∈ m := by
  unfold mapFind at h
  obtain ⟨p, hfind, hpv⟩ := Option.map_eq_some'.mp h
  have hmem := List.mem_of_find?_eq_some hfind
  have hpk := List.find?_some hfind
  simp only [decide_eq_true_eq] at hpk
  have : p = (k, v) := by
    obtain ⟨a, b⟩ := p
    simp only at hpk hpv
    rw [hpk, hpv]
  rw [← this]; exact hmem

/-- C9: `ingestOne` fails exactly when the input does not contain a
single complete framed record (`len < 4`, or `len < size + 4` for the
little-endian u32 prefix `size`); on failure the store is returned
unchanged (both C++ throws precede every mutation), and on success
exactly one record — the framed prefix of the input — is appended, the
newly assigned sequence `nextSequence` is returned, and both maps gain
exactly the new (sequence, offset) association. -/
theorem claim_C9_ingestOne_single_frame (s : Store) (input : List Nat) :
    ((∃ msg, (s.ingestOne input).2 = .error msg) ↔
      (input.length < 4 ∨ input.length < 4 + readLE32At input 0)) ∧
    ((input.length < 4 ∨ input.length < 4 + readLE32At input 0) →
      (s.ingestOne input).1 = s) ∧
    (¬ (input.length < 4 ∨ input.length < 4 + readLE32At input 0) →
      (s.ingestOne input).2 = .ok (s.nextSequence,
        { fileId := extractFileId ((input.drop 4).take (readLE32At input 0)),
          payload := (input.drop 4).take (readLE32At input 0),
          sequence := s.nextSequence, offset := s.data.length }) ∧
      (s.ingestOne input).1.data = s.data ++ input.take (4 + readLE32At input 0) ∧
      (s.ingestOne input).1.recordCount = s.recordCount + 1 ∧
      (s.ingestOne input).1.nextSequence = s.nextSequence + 1 ∧
      (s.ingestOne input).1.getOffsetForSequence s.nextSequence = some s.data.length ∧
      (s.ingestOne input).1.getSequenceForOffset s.data.length = some s.nextSequence ∧
      (∀ q, q ≠ s.nextSequence →
        (s.ingestOne input).1.getOffsetForSequence q = s.getOffsetForSequence q) ∧
      (∀ o, o ≠ s.data.length →
        (s.ingestOne input).1.getSequenceForOffset o = s.getSequenceForOffset o)) := by
  by_cases h4 : input.length < 4
  · refine ⟨⟨fun _ => Or.inl h4, fun _ => ?_⟩, fun _ => ?_, fun hc => absurd (Or.inl h4) hc⟩
    · exact ⟨"Data too small for size prefix", by simp [Store.ingestOne, h4]⟩
    · simp [Store.ingestOne, h4]
  · by_cases hsz : input.length < 4 + readLE32At input 0
    · refine ⟨⟨fun _ => Or.inr hsz, fun _ => ?_⟩, fun _ => ?_,
        fun hc => absurd (Or.inr hsz) hc⟩
      · exact ⟨"Incomplete FlatBuffer data", by simp [Store.ingestOne, h4, hsz]⟩
      · simp [Store.ingestOne, h4, hsz]
    · have hok : s.ingestOne input =
          ((s.appendFrame (input.take (4 + readLE32At input 0))
              ((input.drop 4).take (readLE32At input 0))).1,
            .ok (s.nextSequence,
              (s.appendFrame (input.take (4 + readLE32At input 0))
                ((input.drop 4).take (readLE32At input 0))).2)) := by
        simp [Store.ingestOne, h4, hsz, Store.appendFrame]
      refine ⟨⟨fun ⟨msg, hmsg⟩ => ?_, fun hc => absurd hc (by omega)⟩,
        fun hc => absurd hc (by omega), fun _ => ?_⟩
      · rw [hok] at hmsg; simp at hmsg
      · rw [hok]
        refine ⟨rfl, rfl, rfl, rfl, ?_, ?_, ?_, ?_⟩
        · exact mapFind_mapInsert_self s.seqToOff s.nextSequence s.data.length
        · exact mapFind_mapInsert_self s.offToSeq s.data.length s.nextSequence
        · intro q hq
          exact mapFind_mapInsert_ne s.seqToOff s.nextSequence s.data.length q hq
        · intro o ho
          exact mapFind_mapInsert_ne s.offToSeq s.data.length s.nextSequence o ho

theorem claim_C9_ingestOne_single_frame_witness :
    ¬ (([2, 0, 0, 0, 7, 7, 9] : List Nat).length < 4 ∨
        ([2, 0, 0, 0, 7, 7, 9] : List Nat).length < 4 + readLE32At [2, 0, 0, 0, 7, 7, 9] 0) ∧
    (freshStore.ingestOne [2, 0, 0, 0, 7, 7, 9]).2 = .ok (1,
      { fileId := [], payload := [7, 7], sequence := 1, offset := 0 }) ∧
    (([1, 0, 0] : List Nat).length < 4 ∨
        ([1, 0, 0] : List Nat).length < 4 + readLE32At [1, 0, 0] 0) ∧
    (freshStore.ingestOne [1, 0, 0]).1 = freshStore :=
  ⟨by decide,
   by
    have h := ((claim_C9_ingestOne_single_frame freshStore [2, 0, 0, 0, 7, 7, 9]).2.2
      (by decide)).1
    simpa [readLE32At, extractFileId] using h,
   by decide,
   (claim_C9_ingestOne_single_frame freshStore [1, 0, 0]).2.1 (by decide)⟩

/-! ### Public mutating operations and the bidirectional-map claim (C4) -/

/-- The store's public mutating operations (storage.cpp): streaming
`ingest`, single-frame `ingestOne`, bare-payload `ingestFlatBuffer`
and `loadAndRebuild`. -/
inductive StoreOp where
  | opIngest (bytes : List Nat)
  | opIngestOne (bytes : List Nat)
  | opIngestBare (payload : List Nat)
  | opLoad (bytes : List Nat)
deriving DecidableEq, Repr

def isLoadOp : StoreOp → Bool
  | .opLoad _ => true
  | _ => false

/-- Apply one operation, also returning the callback events it issued
(`ingestOne` issues none when it throws). -/
def applyOpE (s : Store) : StoreOp → Store × List IngestEvent
  | .opIngest b => ((s.ingest b).1, (s.ingest b).2.2)
  | .opIngestOne b =>
    ((s.ingestOne b).1,
      match (s.ingestOne b).2 with
      | .ok r => [r.2]
      | .error _ => [])
  | .opIngestBare p => ((s.ingestBare p).1, [(s.ingestBare p).2.2])
  | .opLoad b => ((s.loadAndRebuild b).1, (s.loadAndRebuild b).2)

def applyOpsE (s : Store) : List StoreOp → Store × List IngestEvent
  | [] => (s, [])
  | op :: rest =>
    let a := applyOpE s op
    let r := applyOpsE a.1 rest
    (r.1, a.2 ++ r.2)

def applyOps (s : Store) (ops : List StoreOp) : Store := (applyOpsE s ops).1

/-- `sequence_to_offset` and `offset_to_sequence` are mutual inverses
(each association in one direction is mirrored in the other, with no
stale entries). -/
def MutualInverse (s : Store) : Prop :=
  ∀ seq off, s.getOffsetForSequence seq = some off ↔ s.getSequenceForOffset off = some seq

/-- All events' associations are present in both maps. -/
def Tracked (s : Store) (E : List IngestEvent) : Prop :=
  ∀ ev ∈ E, s.getOffsetForSequence ev.sequence = some ev.offset ∧
    s.getSequenceForOffset ev.offset = some ev.sequence

/-- C4 counterexample: ingest one framed record, then `loadAndRebuild`
the same bytes.  `loadAndRebuild` clears neither map, so sequence 1
still maps to offset 0 while offset 0 now maps back to sequence 2 —
the maps are no longer mutual inverses after this sequence of public
mutating operations. -/
theorem claim_C4_counterexample :
    ¬ MutualInverse (applyOps freshStore
      [.opIngestOne [4, 0, 0, 0, 9, 9, 9, 9], .opLoad [4, 0, 0, 0, 9, 9, 9, 9]]) := by
  intro h
  have h1 : (applyOps freshStore
      [.opIngestOne [4, 0, 0, 0, 9, 9, 9, 9],
       .opLoad [4, 0, 0, 0, 9, 9, 9, 9]]).getOffsetForSequence 1 = some 0 := by
    simp [applyOps, applyOpsE, applyOpE, Store.ingestOne, Store.loadAndRebuild,
      rebuildLoop, rebuildStep, readLE32At, Store.appendFrame, mapInsert, mapFind,
      Store.getOffsetForSequence, freshStore, extractFileId]
  have h3 : (applyOps freshStore
      [.opIngestOne [4, 0, 0, 0, 9, 9, 9, 9],
       .opLoad [4, 0, 0, 0, 9, 9, 9, 9]]).getSequenceForOffset 0 = some 2 := by
    simp [applyOps, applyOpsE, applyOpE, Store.ingestOne, Store.loadAndRebuild,
      rebuildLoop, rebuildStep, readLE32At, Store.appendFrame, mapInsert, mapFind,
      Store.getSequenceForOffset, freshStore, extractFileId]
  have h2 := (h 1 0).mp h1
  rw [h2] at h3
  simp at h3

/-- Bounds + mutual inversion, with the offsets bounded by an explicit
high-water mark `L` (for an in-memory store `L` is `data.length`; for
the rebuild scan it is the scan position). -/
def MapsInv (A B : List (Nat × Nat)) (n L : Nat) : Prop :=
  (∀ p ∈ A, p.1 < n ∧ p.2 < L) ∧
  (∀ p ∈ B, p.1 < L ∧ p.2 < n) ∧
  (∀ q o, mapFind A q = some o ↔ mapFind B o = some q)

theorem mapsInv_insert {A B : List (Nat × Nat)} {n L : Nat}
    (h : MapsInv A B n L) (n' L' : Nat) (hn : n < n') (hL : L < L') :
    MapsInv (mapInsert A n L) (mapInsert B L n) n' L' := by
  obtain ⟨hA, hB, hiff⟩ := h
  refine ⟨?_, ?_, ?_⟩
  · intro p hp
    rcases mem_mapInsert A n L p hp with rfl | hmem
    · exact ⟨hn, hL⟩
    · have := hA p hmem; omega
  · intro p hp
    rcases mem_mapInsert B L n p hp with rfl | hmem
    · exact ⟨hL, hn⟩
    · have := hB p hmem; omega
  · intro q o
    by_cases hq : q = n
    · subst hq
      by_cases ho : o = L
      · subst ho
        rw [mapFind_mapInsert_self, mapFind_mapInsert_self]
        simp
      · rw [mapFind_mapInsert_self, mapFind_mapInsert_ne B L q o ho]
        constructor
        · intro hLo; exact absurd (Option.some.inj hLo) (fun hh => ho hh.symm)
        · intro hBo
          have := (hB _ (mapFind_some_mem B o q hBo)).2
          omega
    · by_cases ho : o = L
      · subst ho
        rw [mapFind_mapInsert_ne A n o q hq, mapFind_mapInsert_self]
        constructor
        · intro hAo
          have := (hA _ (mapFind_some_mem A q o hAo)).2
          omega
        · intro hno; exact absurd (Option.some.inj hno).symm hq
      · rw [mapFind_mapInsert_ne A n L q hq, mapFind_mapInsert_ne B L n o ho]
        exact hiff q o

/-- The store-level invariant: maps are in `MapsInv` with the live
counters as bounds. -/
def StoreInv (s : Store) : Prop :=
  MapsInv s.seqToOff s.offToSeq s.nextSequence s.data.length

theorem storeInv_fresh : StoreInv freshStore := by
  refine ⟨by simp [freshStore], by simp [freshStore], ?_⟩
  intro q o
  simp [freshStore, mapFind]

theorem mutualInverse_of_storeInv {s : Store} (h : StoreInv s) : MutualInverse s :=
  h.2.2

theorem storeInv_appendFrame {s : Store} (h : StoreInv s) (frame payload : List Nat)
    (hf : 0 < frame.length) : StoreInv (s.appendFrame frame payload).1 := by
  have := mapsInv_insert h (s.nextSequence + 1) (s.data.length + frame.length)
    (by omega) (by omega)
  simpa [Store.appendFrame, StoreInv] using this

theorem tracked_appendFrame {s : Store} {E : List IngestEvent} (h : StoreInv s)
    (hE : Tracked s E) (frame payload : List Nat) :
    Tracked (s.appendFrame frame payload).1 E := by
  intro ev hev
  obtain ⟨h1, h2⟩ := hE ev hev
  have hseq : ev.sequence ≠ s.nextSequence := by
    have := (h.1 _ (mapFind_some_mem _ _ _ h1)).1
    omega
  have hoff : ev.offset ≠ s.data.length := by
    have := (h.1 _ (mapFind_some_mem _ _ _ h1)).2
    omega
  constructor
  · show mapFind (mapInsert s.seqToOff s.nextSequence s.data.length) ev.sequence = some ev.offset
    rw [mapFind_mapInsert_ne _ _ _ _ hseq]; exact h1
  · show mapFind (mapInsert s.offToSeq s.data.length s.nextSequence) ev.offset = some ev.sequence
    rw [mapFind_mapInsert_ne _ _ _ _ hoff]; exact h2

theorem tracked_appendFrame_new (s : Store) (frame payload : List Nat) :
    (s.appendFrame frame payload).1.getOffsetForSequence
        (s.appendFrame frame payload).2.sequence =
      some (s.appendFrame frame payload).2.offset ∧
    (s.appendFrame frame payload).1.getSequenceForOffset
        (s.appendFrame frame payload).2.offset =
      some (s.appendFrame frame payload).2.sequence :=
  ⟨mapFind_mapInsert_self _ _ _, mapFind_mapInsert_self _ _ _⟩

theorem ingestLoop_inv (s : Store) (rem : List Nat) (E : List IngestEvent)
    (h : StoreInv s) (hE : Tracked s E) :
    StoreInv (ingestLoop s rem).1 ∧
    Tracked (ingestLoop s rem).1 (E ++ (ingestLoop s rem).2.2) := by
  induction s, rem using ingestLoop.induct generalizing E with
  | case1 s rem h4 fbSize hs a ih =>
    rw [ingestLoop]
    rw [dif_pos h4, dif_pos hs]
    simp only [fbSize] at hs ih ⊢
    have hfr : 0 < (rem.take (4 + readLE32At rem 0)).length := by
      simp only [List.length_take]
      omega
    have hinv : StoreInv a.1 :=
      storeInv_appendFrame h (rem.take (4 + readLE32At rem 0))
        ((rem.drop 4).take (readLE32At rem 0)) hfr
    have htr : Tracked a.1 (E ++ [a.2]) := by
      intro ev hev
      rcases List.mem_append.mp hev with hev | hev
      · exact tracked_appendFrame h hE _ _ ev hev
      · have : ev = a.2 := by simpa using hev
        subst this
        exact tracked_appendFrame_new s _ _
    have := ih (E ++ [a.2]) hinv htr
    refine ⟨this.1, ?_⟩
    have heq : (E ++ [a.2]) ++ (ingestLoop a.1 (rem.drop (4 + readLE32At rem 0))).2.2 =
        E ++ (a.2 :: (ingestLoop a.1 (rem.drop (4 + readLE32At rem 0))).2.2) := by
      simp
    rw [← heq]
    exact this.2
  | case2 s rem h4 fbSize hs =>
    rw [ingestLoop]
    rw [dif_pos h4, dif_neg hs]
    exact ⟨h, by simpa using hE⟩
  | case3 s rem h4 =>
    rw [ingestLoop, dif_neg h4]
    exact ⟨h, by simpa using hE⟩

/-- Rebuild-scan invariant: offsets are bounded by the scan position. -/
def RebuildInv (s : Store) (off : Nat) : Prop :=
  MapsInv s.seqToOff s.offToSeq s.nextSequence off

theorem rebuildLoop_inv (s : Store) (rem : List Nat) (off : Nat) (E : List IngestEvent)
    (h : RebuildInv s off) (hE : Tracked s E) :
    RebuildInv (rebuildLoop s rem off).1 (off + (rebuildLoop s rem off).2.1) ∧
    Tracked (rebuildLoop s rem off).1 (E ++ (rebuildLoop s rem off).2.2) := by
  induction s, rem, off using rebuildLoop.induct generalizing E with
  | case1 s rem off h4 fbSize hs a ih =>
    rw [rebuildLoop]
    rw [dif_pos h4, dif_pos hs]
    simp only [fbSize] at hs ih ⊢
    have hinv : RebuildInv a.1 (off + (4 + readLE32At rem 0)) := by
      have := mapsInv_insert h (s.nextSequence + 1) (off + (4 + readLE32At rem 0))
        (by omega) (by omega)
      simpa [rebuildStep, RebuildInv] using this
    have htr : Tracked a.1 (E ++ [a.2]) := by
      intro ev hev
      rcases List.mem_append.mp hev with hev | hev
      · obtain ⟨h1, h2⟩ := hE ev hev
        have hseq : ev.sequence ≠ s.nextSequence := by
          have := (h.1 _ (mapFind_some_mem _ _ _ h1)).1
          omega
        have hoff : ev.offset ≠ off := by
          have := (h.1 _ (mapFind_some_mem _ _ _ h1)).2
          omega
        constructor
        · show mapFind (mapInsert s.seqToOff s.nextSequence off) ev.sequence = some ev.offset
          rw [mapFind_mapInsert_ne _ _ _ _ hseq]; exact h1
        · show mapFind (mapInsert s.offToSeq off s.nextSequence) ev.offset = some ev.sequence
          rw [mapFind_mapInsert_ne _ _ _ _ hoff]; exact h2
      · have : ev = a.2 := by simpa using hev
        subst this
        exact ⟨mapFind_mapInsert_self _ _ _, mapFind_mapInsert_self _ _ _⟩
    have := ih (E ++ [a.2]) hinv htr
    refine ⟨?_, ?_⟩
    · have hb := this.1
      have harith : off + (4 + readLE32At rem 0) +
            (rebuildLoop a.1 (rem.drop (4 + readLE32At rem 0)) (off + (4 + readLE32At rem 0))).2.1 =
          off + (4 + readLE32At rem 0 +
            (rebuildLoop a.1 (rem.drop (4 + readLE32At rem 0)) (off + (4 + readLE32At rem 0))).2.1) := by
        omega
      rw [harith] at hb
      exact hb
    · have heq : (E ++ [a.2]) ++
          (rebuildLoop a.1 (rem.drop (4 + readLE32At rem 0)) (off + (4 + readLE32At rem 0))).2.2 =
          E ++ (a.2 ::
            (rebuildLoop a.1 (rem.drop (4 + readLE32At rem 0)) (off + (4 + readLE32At rem 0))).2.2) := by
        simp
      rw [← heq]
      exact this.2
  | case2 s rem off h4 fbSize hs =>
    rw [rebuildLoop]
    rw [dif_pos h4, dif_neg hs]
    exact ⟨by simpa using h, by simpa using hE⟩
  | case3 s rem off h4 =>
    rw [rebuildLoop, dif_neg h4]
    exact ⟨by simpa using h, by simpa using hE⟩

theorem storeInv_load_fresh (b : List Nat) :
    StoreInv (freshStore.loadAndRebuild b).1 ∧
    Tracked (freshStore.loadAndRebuild b).1 (freshStore.loadAndRebuild b).2 := by
  have hfresh : RebuildInv freshStore 0 := by
    refine ⟨by simp [freshStore], by simp [freshStore], ?_⟩
    intro q o
    simp [freshStore, mapFind]
  have htr : Tracked freshStore [] := by intro ev hev; simp at hev
  have hmain := rebuildLoop_inv freshStore b 0 [] hfresh htr
  have hc : (rebuildLoop freshStore b 0).2.1 ≤ b.length := (rebuildLoop_tail freshStore b 0).1
  have hlen : ((freshStore.loadAndRebuild b).1).data.length =
      (rebuildLoop freshStore b 0).2.1 := by
    simp only [Store.loadAndRebuild, List.length_take]
    omega
  constructor
  · show MapsInv (rebuildLoop freshStore b 0).1.seqToOff (rebuildLoop freshStore b 0).1.offToSeq
      (rebuildLoop freshStore b 0).1.nextSequence ((freshStore.loadAndRebuild b).1).data.length
    rw [hlen]
    have h0 : (rebuildLoop freshStore b 0).2.1 = 0 + (rebuildLoop freshStore b 0).2.1 := by omega
    rw [h0]
    exact hmain.1
  · intro ev hev
    exact hmain.2 ev (by simpa [Store.loadAndRebuild] using hev)

/-- Per-operation preservation for the three ingest operations. -/
theorem storeInv_applyOpE {s : Store} {E : List IngestEvent} (op : StoreOp)
    (h : StoreInv s) (hE : Tracked s E) (hop : isLoadOp op = false) :
    StoreInv (applyOpE s op).1 ∧ Tracked (applyOpE s op).1 (E ++ (applyOpE s op).2) := by
  cases op with
  | opIngest b => exact ingestLoop_inv s b E h hE
  | opIngestOne b =>
    by_cases h4 : b.length < 4
    · constructor
      · simpa [applyOpE, Store.ingestOne, h4] using h
      · simpa [applyOpE, Store.ingestOne, h4] using hE
    · by_cases hsz : b.length < 4 + readLE32At b 0
      · constructor
        · simpa [applyOpE, Store.ingestOne, h4, hsz] using h
        · simpa [applyOpE, Store.ingestOne, h4, hsz] using hE
      · have hfr : 0 < (b.take (4 + readLE32At b 0)).length := by
          simp only [List.length_take]
          omega
        have heval : applyOpE s (.opIngestOne b) =
            ((s.appendFrame (b.take (4 + readLE32At b 0)) ((b.drop 4).take (readLE32At b 0))).1,
             [(s.appendFrame (b.take (4 + readLE32At b 0)) ((b.drop 4).take (readLE32At b 0))).2]) := by
          simp [applyOpE, Store.ingestOne, h4, hsz]
        rw [heval]
        refine ⟨?_, ?_⟩
        · show StoreInv (s.appendFrame (b.take (4 + readLE32At b 0))
            ((b.drop 4).take (readLE32At b 0))).1
          exact storeInv_appendFrame h _ _ hfr
        intro ev hev
        rcases List.mem_append.mp hev with hev | hev
        · exact tracked_appendFrame h hE (b.take (4 + readLE32At b 0))
            ((b.drop 4).take (readLE32At b 0)) ev hev
        · have : ev = (s.appendFrame (b.take (4 + readLE32At b 0))
              ((b.drop 4).take (readLE32At b 0))).2 := by simpa using hev
          subst this
          exact tracked_appendFrame_new s _ _
  | opIngestBare p =>
    have hfr : 0 < (writeLE32 p.length ++ p).length := by
      simp [writeLE32]
    refine ⟨?_, ?_⟩
    · show StoreInv (s.appendFrame (writeLE32 p.length ++ p) p).1
      exact storeInv_appendFrame h _ _ hfr
    intro ev hev
    rcases List.mem_append.mp hev with hev | hev
    · exact tracked_appendFrame h hE (writeLE32 p.length ++ p) p ev hev
    · have : ev = (s.appendFrame (writeLE32 p.length ++ p) p).2 := by
        simpa [applyOpE, Store.ingestBare] using hev
      subst this
      exact tracked_appendFrame_new s _ _
  | opLoad b => simp [isLoadOp] at hop

theorem storeInv_applyOpsE {s : Store} {E : List IngestEvent} (ops : List StoreOp)
    (h : StoreInv s) (hE : Tracked s E) (hops : ∀ op ∈ ops, isLoadOp op = false) :
    StoreInv (applyOpsE s ops).1 ∧
    Tracked (applyOpsE s ops).1 (E ++ (applyOpsE s ops).2) := by
  induction ops generalizing s E with
  | nil => exact ⟨h, by simpa [applyOpsE] using hE⟩
  | cons op rest ih =>
    have h1 := storeInv_applyOpE op h hE (hops op (by simp))
    have h2 := ih h1.1 h1.2 (fun o ho => hops o (by simp [ho]))
    have hunfold : applyOpsE s (op :: rest) =
        ((applyOpsE (applyOpE s op).1 rest).1,
         (applyOpE s op).2 ++ (applyOpsE (applyOpE s op).1 rest).2) := rfl
    rw [hunfold]
    refine ⟨h2.1, ?_⟩
    show Tracked (applyOpsE (applyOpE s op).1 rest).1
      (E ++ ((applyOpE s op).2 ++ (applyOpsE (applyOpE s op).1 rest).2))
    rw [← List.append_assoc]
    exact h2.2

/-- `loadAndRebuild` occurs at most as the very first operation. -/
def LoadOnlyFirst (ops : List StoreOp) : Prop :=
  ∀ op ∈ ops.drop 1, isLoadOp op = false

instance (ops : List StoreOp) : Decidable (LoadOnlyFirst ops) := by
  unfold LoadOnlyFirst; infer_instance

/-- C4 amended: after every sequence of the public mutating operations
in which `loadAndRebuild` appears at most as the first operation on
the fresh store, the two maps are mutual inverses, and every record
ingested along the way (every callback event) is present in both
directions. -/
theorem claim_C4_amended_bidirectional_map (ops : List StoreOp)
    (h : LoadOnlyFirst ops) :
    MutualInverse (applyOps freshStore ops) ∧
    Tracked (applyOps freshStore ops) (applyOpsE freshStore ops).2 := by
  cases ops with
  | nil =>
    refine ⟨?_, ?_⟩
    · exact mutualInverse_of_storeInv storeInv_fresh
    · intro ev hev; simp [applyOpsE] at hev
  | cons op rest =>
    have hrest : ∀ o ∈ rest, isLoadOp o = false := by
      intro o ho
      exact h o (by simpa using ho)
    have hfirst : StoreInv (applyOpE freshStore op).1 ∧
        Tracked (applyOpE freshStore op).1 (applyOpE freshStore op).2 := by
      cases op with
      | opLoad b => exact storeInv_load_fresh b
      | opIngest b =>
        have := storeInv_applyOpE (E := []) (.opIngest b) storeInv_fresh
          (by intro ev hev; simp at hev) rfl
        exact ⟨this.1, by simpa using this.2⟩
      | opIngestOne b =>
        have := storeInv_applyOpE (E := []) (.opIngestOne b) storeInv_fresh
          (by intro ev hev; simp at hev) rfl
        exact ⟨this.1, by simpa using this.2⟩
      | opIngestBare p =>
        have := storeInv_applyOpE (E := []) (.opIngestBare p) storeInv_fresh
          (by intro ev hev; simp at hev) rfl
        exact ⟨this.1, by simpa using this.2⟩
    have hfold := storeInv_applyOpsE rest hfirst.1 hfirst.2 hrest
    have hunfold : applyOpsE freshStore (op :: rest) =
        ((applyOpsE (applyOpE freshStore op).1 rest).1,
         (applyOpE freshStore op).2 ++ (applyOpsE (applyOpE freshStore op).1 rest).2) := rfl
    constructor
    · show MutualInverse (applyOpsE freshStore (op :: rest)).1
      rw [hunfold]
      exact mutualInverse_of_storeInv hfold.1
    · show Tracked (applyOpsE freshStore (op :: rest)).1 (applyOpsE freshStore (op :: rest)).2
      rw [hunfold]
      exact hfold.2

theorem claim_C4_amended_bidirectional_map_witness :
    LoadOnlyFirst [.opLoad [3, 0, 0, 0, 8, 8, 8], .opIngestBare [1, 2, 3, 4, 5, 6, 7, 8]] ∧
    MutualInverse (applyOps freshStore
      [.opLoad [3, 0, 0, 0, 8, 8, 8], .opIngestBare [1, 2, 3, 4, 5, 6, 7, 8]]) :=
  ⟨by decide,
   (claim_C4_amended_bidirectional_map
      [.opLoad [3, 0, 0, 0, 8, 8, 8], .opIngestBare [1, 2, 3, 4, 5, 6, 7, 8]]
      (by decide)).1⟩

/-! ### Value-comparison facts (claim C8) -/

theorem cmp3_neg (x y : Int) : cmp3 x y = -cmp3 y x := by
  unfold cmp3; split_ifs <;> omega

theorem cmp3_lt (x y : Int) : cmp3 x y < 0 ↔ x < y := by
  unfold cmp3; split_ifs <;> constructor <;> intro h0 <;> first | exact absurd h0 (by decide) | omega | decide

theorem cmp3_eq (x y : Int) : cmp3 x y = 0 ↔ x = y := by
  unfold cmp3; split_ifs <;> constructor <;> intro h0 <;> first | exact absurd h0 (by decide) | omega | decide

theorem strCompare_nil_left (t : List Nat) : strCompare [] t = -(t.length : Int) := by
  simp [strCompare, memDiff]

theorem strCompare_nil_right (s : List Nat) : strCompare s [] = (s.length : Int) := by
  cases s <;> simp [strCompare, memDiff]

theorem strCompare_cons_cons (a : Nat) (s : List Nat) (b : Nat) (t : List Nat) :
    strCompare (a :: s) (b :: t) =
      if a = b then strCompare s t else (a : Int) - (b : Int) := by
  by_cases hab : a = b
  · subst hab
    simp only [strCompare, memDiff, if_pos rfl, if_pos trivial, List.length_cons]
    split_ifs with h
    · push_cast; ring
    · rfl
  · have hne : (a : Int) - (b : Int) ≠ 0 := by omega
    simp [strCompare, memDiff, hab, hne]

theorem strCompare_neg (s : List Nat) : ∀ t, strCompare s t = -strCompare t s := by
  induction s with
  | nil =>
    intro t
    rw [strCompare_nil_left, strCompare_nil_right]
  | cons a s ih =>
    intro t
    cases t with
    | nil =>
      rw [strCompare_nil_left, strCompare_nil_right]
      omega
    | cons b t =>
      rw [strCompare_cons_cons, strCompare_cons_cons]
      by_cases hab : a = b
      · subst hab
        rw [if_pos rfl, if_pos rfl]
        exact ih t
      · rw [if_neg hab, if_neg (fun hh => hab hh.symm)]
        omega

theorem strCompare_eq_iff (s : List Nat) : ∀ t, strCompare s t = 0 ↔ s = t := by
  induction s with
  | nil =>
    intro t
    rw [strCompare_nil_left]
    cases t with
    | nil => simp
    | cons b t =>
      simp only [List.length_cons]
      constructor
      · intro h; omega
      · intro h; simp at h
  | cons a s ih =>
    intro t
    cases t with
    | nil =>
      rw [strCompare_nil_right]
      simp only [List.length_cons]
      constructor
      · intro h; omega
      · intro h; simp at h
    | cons b t =>
      rw [strCompare_cons_cons]
      by_cases hab : a = b
      · subst hab
        rw [if_pos rfl]
        simpa using ih t
      · rw [if_neg hab]
        constructor
        · intro h; omega
        · intro h; simp at h; exact absurd h.1 hab

theorem strCompare_trans (s : List Nat) :
    ∀ t u, strCompare s t < 0 → strCompare t u < 0 → strCompare s u < 0 := by
  induction s with
  | nil =>
    intro t u h1 h2
    cases u with
    | nil =>
      cases t with
      | nil => simp [strCompare_nil_left] at h1
      | cons b t =>
        rw [strCompare_nil_right] at h2
        simp only [List.length_cons] at h2
        omega
    | cons c u =>
      rw [strCompare_nil_left]
      simp only [List.length_cons]
      omega
  | cons a s ih =>
    intro t u h1 h2
    cases t with
    | nil => rw [strCompare_nil_right] at h1; omega
    | cons b t =>
      cases u with
      | nil => rw [strCompare_nil_right] at h2; omega
      | cons c u =>
        rw [strCompare_cons_cons] at h1 h2 ⊢
        by_cases hab : a = b <;> by_cases hbc : b = c
        · subst hab; subst hbc
          rw [if_pos rfl] at h1 h2 ⊢
          exact ih t u h1 h2
        · subst hab
          rw [if_pos rfl] at h1
          rw [if_neg hbc] at h2
          rw [if_neg hbc]
          omega
        · subst hbc
          rw [if_neg hab] at h1
          rw [if_pos rfl] at h2
          rw [if_neg hab]
          omega
        · rw [if_neg hab] at h1
          rw [if_neg hbc] at h2
          have hac : ¬ a = c := by omega
          rw [if_neg hac]
          omega

theorem strCompare_lt_lex (s : List Nat) :
    ∀ t, strCompare s t < 0 ↔ List.Lex (· < ·) s t := by
  induction s with
  | nil =>
    intro t
    rw [strCompare_nil_left]
    cases t with
    | nil => simp
    | cons b t =>
      simp only [List.length_cons]
      constructor
      · intro _; exact List.Lex.nil
      · intro _; omega
  | cons a s ih =>
    intro t
    cases t with
    | nil =>
      rw [strCompare_nil_right]
      constructor
      · intro h
        simp only [List.length_cons] at h
        omega
      · intro h; cases h
    | cons b t =>
      rw [strCompare_cons_cons]
      by_cases hab : a = b
      · subst hab
        rw [if_pos rfl]
        rw [ih t]
        constructor
        · exact List.Lex.cons
        · intro h
          cases h with
          | cons h => exact h
          | rel h => omega
      · rw [if_neg hab]
        constructor
        · intro h
          exact List.Lex.rel (by omega)
        · intro h
          cases h with
          | cons h => exact absurd rfl hab
          | rel h => omega

theorem bytesCompare_eq_strCompare_sign (s : List Nat) :
    ∀ t, (bytesCompare s t < 0 ↔ strCompare s t < 0) ∧
      (bytesCompare s t = 0 ↔ strCompare s t = 0) ∧
      bytesCompare s t = -bytesCompare t s := by
  induction s with
  | nil =>
    intro t
    cases t with
    | nil => simp [bytesCompare, strCompare, memDiff]
    | cons b t =>
      rw [strCompare_nil_left]
      simp only [bytesCompare, List.length_cons]
      refine ⟨?_, ?_, by first | trivial | omega | simp [bytesCompare]⟩
      · constructor <;> intro h0 <;> first | exact absurd h0 (by decide) | omega | decide
      · constructor <;> intro h0 <;> first | exact absurd h0 (by decide) | omega | decide
  | cons a s ih =>
    intro t
    cases t with
    | nil =>
      rw [strCompare_nil_right]
      simp only [bytesCompare, List.length_cons]
      refine ⟨?_, ?_, by first | trivial | omega | simp [bytesCompare]⟩
      · constructor <;> intro h0 <;> first | exact absurd h0 (by decide) | omega | decide
      · constructor <;> intro h0 <;> first | exact absurd h0 (by decide) | omega | decide
    | cons b t =>
      rw [strCompare_cons_cons]
      by_cases hlt : a < b
      · have hab : ¬ a = b := by omega
        have hba : ¬ b < a := by omega
        simp only [bytesCompare, if_pos hlt, if_neg hab, if_neg hba]
        refine ⟨?_, ?_, by first | trivial | omega | simp [bytesCompare]⟩
        · constructor <;> intro h0 <;> first | exact absurd h0 (by decide) | omega | decide
        · constructor <;> intro h0 <;> first | exact absurd h0 (by decide) | omega | decide
      · by_cases hgt : b < a
        · have hab : ¬ a = b := by omega
          simp only [bytesCompare, if_neg hlt, if_pos hgt, if_neg hab]
          refine ⟨?_, ?_, by first | trivial | omega | simp [bytesCompare]⟩
          · constructor <;> intro h0 <;> first | exact absurd h0 (by decide) | omega | decide
          · constructor <;> intro h0 <;> first | exact absurd h0 (by decide) | omega | decide
        · have hab : a = b := by omega
          subst hab
          have hf : ¬ a < a := by omega
          simp only [bytesCompare, if_neg hf, if_pos rfl]
          exact ih t

theorem bytesCompare_lt_iff (s t : List Nat) :
    bytesCompare s t < 0 ↔ strCompare s t < 0 :=
  (bytesCompare_eq_strCompare_sign s t).1

theorem bytesCompare_eq_iff (s t : List Nat) : bytesCompare s t = 0 ↔ s = t :=
  (bytesCompare_eq_strCompare_sign s t).2.1.trans (strCompare_eq_iff s t)

theorem bytesCompare_neg (s t : List Nat) : bytesCompare s t = -bytesCompare t s :=
  (bytesCompare_eq_strCompare_sign s t).2.2

theorem strCompare_nil_nil : strCompare ([] : List Nat) [] = 0 := by decide

/-- Order-embedding key for same-variant payloads: numeric/boolean
variants order by their integer; string/byte variants by byte
lexicography. -/
def numKey : Value → Int
  | .VBool b => if b then 1 else 0
  | .VI8 n => n
  | .VI16 n => n
  | .VI32 n => n
  | .VI64 n => n
  | .VU8 n => n
  | .VU16 n => n
  | .VU32 n => n
  | .VU64 n => n
  | .VF32 n => n
  | .VF64 n => n
  | _ => 0

def listKey : Value → List Nat
  | .VStr s => s
  | .VBytes s => s
  | _ => []

def KeyLt (a b : Value) : Prop :=
  numKey a < numKey b ∨ (numKey a = numKey b ∧ strCompare (listKey a) (listKey b) < 0)

theorem keyLt_trans {a b c : Value} (h1 : KeyLt a b) (h2 : KeyLt b c) : KeyLt a c := by
  unfold KeyLt at *
  rcases h1 with h1 | ⟨h1, h1'⟩ <;> rcases h2 with h2 | ⟨h2, h2'⟩
  · left; omega
  · left; omega
  · left; omega
  · right; exact ⟨by omega, strCompare_trans _ _ _ h1' h2'⟩

theorem spc_neg (a b : Value) (h : a.variantIndex = b.variantIndex) :
    samePayloadCmp a b = -samePayloadCmp b a := by
  cases a <;> cases b <;>
    solve
      | (simp only [Value.variantIndex] at h; exact absurd h (by decide))
      | decide
      | (simp only [samePayloadCmp] <;>
         first
           | exact cmp3_neg _ _
           | exact strCompare_neg _ _
           | exact bytesCompare_neg _ _
           | (rename_i x y; cases x <;> cases y <;> decide)
           | omega)

theorem spc_lt_char (a b : Value) (h : a.variantIndex = b.variantIndex) :
    samePayloadCmp a b < 0 ↔ KeyLt a b := by
  cases a <;> cases b <;>
    solve
      | (simp only [Value.variantIndex] at h; exact absurd h (by decide))
      | (simp only [samePayloadCmp, KeyLt, numKey, listKey, strCompare_nil_nil,
          lt_self_iff_false, and_false, false_and, or_false, false_or, true_and] <;>
         first
           | rfl
           | decide
           | exact cmp3_lt _ _
           | exact bytesCompare_lt_iff _ _
           | (rename_i x y; cases x <;> cases y <;> decide))

theorem spc_eq_char (a b : Value) (h : a.variantIndex = b.variantIndex) :
    samePayloadCmp a b = 0 ↔ a = b := by
  cases a <;> cases b <;>
    solve
      | (simp only [Value.variantIndex] at h; exact absurd h (by decide))
      | decide
      | (simp only [samePayloadCmp] <;>
         first
           | (rw [cmp3_eq] <;> simp)
           | (rw [strCompare_eq_iff] <;> simp)
           | (rw [bytesCompare_eq_iff] <;> simp)
           | (rename_i x y; cases x <;> cases y <;> decide))

theorem compareValues_neg (a b : Value) : compareValues a b = -compareValues b a := by
  unfold compareValues
  by_cases ha : a = .VNull <;> by_cases hb : b = .VNull
  · rw [if_pos ha, if_pos hb, if_pos hb, if_pos ha]; try rfl
  · rw [if_pos ha, if_neg hb, if_neg hb, if_pos ha]; try rfl
  · rw [if_neg ha, if_pos hb, if_pos hb, if_neg ha]; try rfl
  · rw [if_neg ha, if_neg hb, if_neg hb, if_neg ha]
    by_cases hidx : a.variantIndex = b.variantIndex
    · rw [if_neg (not_not_intro hidx), if_neg (not_not_intro hidx.symm)]
      exact spc_neg a b hidx
    · rw [if_pos hidx, if_pos (fun hh => hidx hh.symm)]
      split_ifs <;> omega

theorem compareValues_lt_char (a b : Value) :
    compareValues a b < 0 ↔
      ((a = .VNull ∧ b ≠ .VNull) ∨
       (a ≠ .VNull ∧ b ≠ .VNull ∧
        (a.variantIndex < b.variantIndex ∨
         (a.variantIndex = b.variantIndex ∧ KeyLt a b)))) := by
  unfold compareValues
  by_cases ha : a = .VNull <;> by_cases hb : b = .VNull
  · rw [if_pos ha, if_pos hb]; simp [ha, hb]
  · rw [if_pos ha, if_neg hb]; simp [ha, hb]
  · rw [if_neg ha, if_pos hb]; simp [ha, hb]
  · rw [if_neg ha, if_neg hb]
    by_cases hidx : a.variantIndex = b.variantIndex
    · rw [if_neg (not_not_intro hidx)]
      rw [spc_lt_char a b hidx]
      simp [ha, hb, hidx]
    · rw [if_pos hidx]
      split_ifs with hlt
      · constructor
        · intro _
          exact Or.inr ⟨ha, hb, Or.inl hlt⟩
        · intro _
          decide
      · constructor
        · intro hcon; exact absurd hcon (by decide)
        · rintro ((⟨h1, _⟩) | ⟨_, _, (h1 | ⟨h1, _⟩)⟩)
          · exact absurd h1 ha
          · exact absurd h1 hlt
          · exact absurd h1 hidx

theorem compareValues_trans (a b c : Value)
    (h1 : compareValues a b < 0) (h2 : compareValues b c < 0) :
    compareValues a c < 0 := by
  rw [compareValues_lt_char] at h1 h2 ⊢
  rcases h1 with ⟨ha, hb⟩ | ⟨ha, hb, h1⟩
  · rcases h2 with ⟨hb', _⟩ | ⟨_, hc, _⟩
    · exact absurd hb' hb
    · exact Or.inl ⟨ha, hc⟩
  · rcases h2 with ⟨hb', _⟩ | ⟨_, hc, h2⟩
    · exact absurd hb' hb
    · refine Or.inr ⟨ha, hc, ?_⟩
      rcases h1 with hlt | ⟨heq, hk⟩ <;> rcases h2 with hlt' | ⟨heq', hk'⟩
      · left; omega
      · left; omega
      · left; omega
      · right; exact ⟨heq.trans heq', keyLt_trans hk hk'⟩

theorem compareValues_eq_iff (a b : Value) : compareValues a b = 0 ↔ a = b := by
  unfold compareValues
  by_cases ha : a = .VNull <;> by_cases hb : b = .VNull
  · rw [if_pos ha, if_pos hb]; simp [ha, hb]
  · rw [if_pos ha, if_neg hb]
    subst ha
    constructor
    · intro hcon; exact absurd hcon (by decide)
    · intro hcon; exact absurd hcon.symm hb
  · rw [if_neg ha, if_pos hb]
    subst hb
    constructor
    · intro hcon; exact absurd hcon (by decide)
    · intro hcon; exact absurd hcon ha
  · rw [if_neg ha, if_neg hb]
    by_cases hidx : a.variantIndex = b.variantIndex
    · rw [if_neg (not_not_intro hidx)]
      exact spc_eq_char a b hidx
    · rw [if_pos hidx]
      constructor
      · intro hcon
        split_ifs at hcon <;> exact absurd hcon (by decide)
      · rintro rfl
        exact absurd rfl hidx

/-- C8 counterexample: `compareValues` is not {-1,0,1}-valued — the
string branch returns `std::string::compare`'s raw result, here the
byte difference `'a' - 'c' = -2`. -/
theorem claim_C8_counterexample :
    ¬ (∀ a b : Value, compareValues a b = -1 ∨ compareValues a b = 0 ∨
        compareValues a b = 1) := by
  intro h
  have := h (.VStr [97]) (.VStr [99])
  revert this
  decide

/-- C8 amended: `compareValues` returns a negative, zero or positive
value (strings return the unclamped byte/length difference); its sign
is a total order on the Value domain: antisymmetric
(`compareValues a b = -compareValues b a`, and `compareValues a b = 0`
iff `a = b`), transitive, with null before every non-null value,
distinct non-null variants ordered by variant tag ordinal, and within
a variant: booleans `false < true`, numeric payloads by natural order,
strings and byte vectors by lexicographic byte order. -/
theorem claim_C8_amended_compare_total_order :
    (∀ a b : Value, compareValues a b = -compareValues b a) ∧
    (∀ a b c : Value, compareValues a b < 0 → compareValues b c < 0 →
      compareValues a c < 0) ∧
    (∀ a b : Value, compareValues a b = 0 ↔ a = b) ∧
    (∀ b : Value, b ≠ .VNull → compareValues .VNull b = -1) ∧
    (∀ a : Value, a ≠ .VNull → compareValues a .VNull = 1) ∧
    (∀ a b : Value, a ≠ .VNull → b ≠ .VNull →
      a.variantIndex ≠ b.variantIndex →
      compareValues a b = (if a.variantIndex < b.variantIndex then -1 else 1)) ∧
    compareValues (.VBool false) (.VBool true) = -1 ∧
    (∀ x y : Int, compareValues (.VI64 x) (.VI64 y) < 0 ↔ x < y) ∧
    (∀ m n : Nat, compareValues (.VU32 m) (.VU32 n) < 0 ↔ m < n) ∧
    (∀ x y : Int, compareValues (.VF64 x) (.VF64 y) < 0 ↔ x < y) ∧
    (∀ s t : List Nat, compareValues (.VStr s) (.VStr t) < 0 ↔ List.Lex (· < ·) s t) ∧
    (∀ s t : List Nat, compareValues (.VBytes s) (.VBytes t) < 0 ↔ List.Lex (· < ·) s t) := by
  refine ⟨compareValues_neg, compareValues_trans, compareValues_eq_iff,
    ?_, ?_, ?_, by decide, ?_, ?_, ?_, ?_, ?_⟩
  · intro b hb
    unfold compareValues
    rw [if_pos rfl, if_neg hb]
  · intro a ha
    unfold compareValues
    rw [if_neg ha, if_pos rfl]
  · intro a b ha hb hidx
    unfold compareValues
    rw [if_neg ha, if_neg hb, if_pos hidx]
  · intro x y
    have he : compareValues (.VI64 x) (.VI64 y) = cmp3 x y := rfl
    rw [he]; exact cmp3_lt x y
  · intro m n
    have he : compareValues (.VU32 m) (.VU32 n) = cmp3 m n := rfl
    rw [he]
    rw [cmp3_lt]
    exact Int.ofNat_lt
  · intro x y
    have he : compareValues (.VF64 x) (.VF64 y) = cmp3 x y := rfl
    rw [he]; exact cmp3_lt x y
  · intro s t
    have he : compareValues (.VStr s) (.VStr t) = strCompare s t := rfl
    rw [he]; exact strCompare_lt_lex s t
  · intro s t
    have he : compareValues (.VBytes s) (.VBytes t) = bytesCompare s t := rfl
    rw [he]
    rw [bytesCompare_lt_iff]
    exact strCompare_lt_lex s t

theorem claim_C8_amended_compare_total_order_witness :
    compareValues (.VI64 2) (.VI64 9) < 0 ∧
    compareValues .VNull (.VBool false) = -1 ∧
    compareValues (.VStr [97, 98]) (.VStr [97, 99]) < 0 :=
  ⟨(claim_C8_amended_compare_total_order.2.2.2.2.2.2.2.1 2 9).mpr (by decide),
   claim_C8_amended_compare_total_order.2.2.2.1 (.VBool false) (by decide),
   (claim_C8_amended_compare_total_order.2.2.2.2.2.2.2.2.2.2.1 [97, 98] [97, 99]).mpr
     (List.Lex.cons (List.Lex.rel (by decide)))⟩

/-! ### In-memory B-tree (src/btree.cpp, claim C6)

The C++ recursion walks node ids through the `nodes_` map, so the
embedding passes explicit fuel; every claim about it is settled by
evaluation on concrete trees, where the fuel is ample.  `getNode`
throws on a missing id in C++; the embedding returns a default node,
which is never reached on the evaluated inputs. -/

structure BTreeNode where
  nodeId : Nat
  isLeaf : Bool
  entries : List IndexEntry
  children : List Nat
  parentId : Nat
deriving DecidableEq, Repr

def defaultEntry : IndexEntry := ⟨.VNull, 0, 0, 0⟩

def defaultNode : BTreeNode := ⟨0, true, [], [], 0⟩

def nmapInsert (m : List (Nat × BTreeNode)) (k : Nat) (v : BTreeNode) :
    List (Nat × BTreeNode) :=
  if m.any (fun p => p.1 = k) then
    m.map (fun p => if p.1 = k then (k, v) else p)
  else
    m ++ [(k, v)]

def nmapFind (m : List (Nat × BTreeNode)) (k : Nat) : Option BTreeNode :=
  (m.find? (fun p => p.1 = k)).map (fun p => p.2)

structure BTree where
  order : Nat
  nodes : List (Nat × BTreeNode)
  rootId : Nat
  nextNodeId : Nat
  entryCount : Nat
deriving DecidableEq, Repr

def BTree.getNode (t : BTree) (id : Nat) : BTreeNode :=
  (nmapFind t.nodes id).getD defaultNode

def BTree.setNode (t : BTree) (id : Nat) (n : BTreeNode) : BTree :=
  { t with nodes := nmapInsert t.nodes id n }

/-- `BTree::createNode`. -/
def BTree.createNode (t : BTree) (isLeaf : Bool) (parentId : Nat) : BTree × Nat :=
  let nodeId := t.nextNodeId
  ({ t with
      nextNodeId := nodeId + 1
      nodes := nmapInsert t.nodes nodeId
        { nodeId := nodeId, isLeaf := isLeaf, entries := [], children := [],
          parentId := parentId } },
   nodeId)

/-- The `BTree` constructor (`rootId_ = createNode(true, 0)`). -/
def BTree.new (order : Nat) : BTree :=
  let t0 : BTree :=
    { order := order, nodes := [], rootId := 0, nextNodeId := 1, entryCount := 0 }
  let r := t0.createNode true 0
  { r.1 with rootId := r.2 }

/-- The insert-position scan `while (i >= 0 && compareValues(key,
entries[i].key) < 0) i--;` followed by `i + 1`: the number of entries
before the trailing run that is strictly greater than `key`. -/
def insertPos (key : Value) (entries : List IndexEntry) : Nat :=
  entries.length -
    (entries.reverse.takeWhile (fun e => compareValues key e.key < 0)).length

/-- `BTree::splitChild`. -/
def BTree.splitChild (t : BTree) (parentId : Nat) (childIndex : Nat) : BTree :=
  let parent := t.getNode parentId
  let childId := parent.children.getD childIndex 0
  let child := t.getNode childId
  let mid := (t.order - 1) / 2
  let r := t.createNode child.isLeaf parentId
  let t1 := r.1
  let siblingId := r.2
  let sibEntries := child.entries.drop (mid + 1)
  let midEntry := child.entries.getD mid defaultEntry
  let childEntries := child.entries.take mid
  let sibChildren := if child.isLeaf then [] else child.children.drop (mid + 1)
  let childChildren := if child.isLeaf then child.children
    else child.children.take (mid + 1)
  let t2 := t1.setNode siblingId
    { nodeId := siblingId, isLeaf := child.isLeaf, entries := sibEntries,
      children := sibChildren, parentId := parentId }
  let t3 := sibChildren.foldl (fun acc cid =>
    acc.setNode cid { acc.getNode cid with parentId := siblingId }) t2
  let t4 := t3.setNode childId
    { child with entries := childEntries, children := childChildren }
  let parentNode := t4.getNode parentId
  t4.setNode parentId
    { parentNode with
        entries := parentNode.entries.insertIdx childIndex midEntry
        children := parentNode.children.insertIdx (childIndex + 1) siblingId }

/-- `BTree::insertNonFull` (fuelled: the C++ recursion descends the
tree through the node map). -/
def BTree.insertNonFull (t : BTree) (fuel : Nat) (nodeId : Nat) (entry : IndexEntry) :
    BTree :=
  match fuel with
  | 0 => t
  | fuel + 1 =>
    let node := t.getNode nodeId
    if node.isLeaf then
      t.setNode nodeId
        { node with entries := node.entries.insertIdx (insertPos entry.key node.entries) entry }
    else
      let i := insertPos entry.key node.entries
      let childId := node.children.getD i 0
      let child := t.getNode childId
      if t.order - 1 ≤ child.entries.length then
        let t' := t.splitChild nodeId i
        let nodeAfterSplit := t'.getNode nodeId
        let i' := if 0 < compareValues entry.key
            ((nodeAfterSplit.entries.getD i defaultEntry).key) then i + 1 else i
        t'.insertNonFull fuel (nodeAfterSplit.children.getD i' 0) entry
      else
        t.insertNonFull fuel childId entry

/-- `BTree::insert`. -/
def BTree.insert (t : BTree) (key : Value) (dataOffset dataLength sequence : Nat) :
    BTree :=
  let entry : IndexEntry :=
    { key := key, dataOffset := dataOffset, dataLength := dataLength,
      sequence := sequence }
  let root := t.getNode t.rootId
  let t1 :=
    if t.order - 1 ≤ root.entries.length then
      let r := t.createNode false 0
      let newRootId := r.2
      let t' := r.1.setNode newRootId
        { (r.1.getNode newRootId) with children := [t.rootId] }
      let t'' := t'.setNode t.rootId { t'.getNode t.rootId with parentId := newRootId }
      let t3 := t''.splitChild newRootId 0
      { t3 with rootId := newRootId }
    else t
  let t2 := t1.insertNonFull (t1.nextNodeId + 1) t1.rootId entry
  { t2 with entryCount := t2.entryCount + 1 }

/-- `BTree::searchNode` (fuelled).  Collects the run of equal entries
in the current node, then descends into the single child at the first
position whose separator is not less than the key. -/
def BTree.searchNode (t : BTree) (fuel : Nat) (nodeId : Nat) (key : Value) :
    List IndexEntry :=
  match fuel with
  | 0 => []
  | fuel + 1 =>
    let node := t.getNode nodeId
    let lead := node.entries.takeWhile (fun e => 0 < compareValues key e.key)
    let i := lead.length
    let eqRun := (node.entries.drop i).takeWhile (fun e => compareValues key e.key = 0)
    if node.isLeaf then eqRun
    else eqRun ++ t.searchNode fuel (node.children.getD i 0) key

/-- `BTree::search`. -/
def BTree.search (t : BTree) (key : Value) : List IndexEntry :=
  t.searchNode (t.nextNodeId + 1) t.rootId key

/-- The concrete tree of the C6 failing input: an order-4 B-tree into
which four entries with the same key `Int64 5` are inserted. -/
def dupTree : BTree :=
  ((((BTree.new 4).insert (.VI64 5) 10 1 1).insert (.VI64 5) 20 1 2).insert
    (.VI64 5) 30 1 3).insert (.VI64 5) 40 1 4

/-- C6: the B-tree does NOT return all duplicates.  Inserting four
entries with equal keys into an order-4 tree splits the duplicates
across nodes, and `search` — which descends into only one child per
node — returns just 2 of the 4 entries, contradicting the contract
"returns all entries with an exactly equal key" and `searchNode`'s own
comment "Collect all matching entries (handles duplicates)". -/
theorem claim_C6_search_misses_split_duplicates :
    dupTree.entryCount = 4 ∧
    (dupTree.search (.VI64 5)).length = 2 ∧
    ((dupTree.search (.VI64 5)).map IndexEntry.sequence = [2, 1]) := by decide

/-! ### Query planning: xBestIndex (src/sqlite_vtab.cpp, claim C7) -/

/-- The SQLite constraint operators the planner inspects. -/
inductive COp where
  | OpEQ
  | OpGT
  | OpLE
  | OpLT
  | OpGE
  | OpOther
deriving DecidableEq, Repr

/-- One entry of `sqlite3_index_info.aConstraint`. -/
structure VConstraint where
  iColumn : Int
  op : COp
  usable : Bool
deriving DecidableEq, Repr

/-- The column facts `xBestIndex` reads from the table definition. -/
structure ColumnInfo where
  name : String
  primaryKey : Bool
deriving DecidableEq, Repr

def defaultColumn : ColumnInfo := ⟨"", false⟩

def hasIndexOn (indexes : List String) (name : String) : Bool :=
  indexes.contains name

def isRangeOp (op : COp) : Bool :=
  op = .OpGE || op = .OpGT || op = .OpLE || op = .OpLT

/-- Planner loop state: `idxNum`, `estimatedCost` (the doubles 1e6, 1,
10, 100 are integers, modelled as `Nat`), the running `argvIndex`
counter (starts at 1), and the per-constraint
`(argvIndex?, omit)` usage outputs in order. -/
structure BIState where
  idxNum : Nat
  cost : Nat
  argv : Nat
  usage : List (Option Nat × Bool)
deriving DecidableEq, Repr

/-- One iteration of the constraint loop in `xBestIndex`.  (For
`iColumn = -1` with a non-EQ operator the C++ indexes
`columns[-1]` — undefined behaviour; the model totalises via `toNat`,
and the C7 theorems assume SQLite's actual constraint shape,
`iColumn ≥ -1` with rowid constraints only reaching here as EQ.) -/
def bestIndexStep (cols : List ColumnInfo) (indexes : List String)
    (st : BIState) (c : VConstraint) : BIState :=
  if c.usable = false then { st with usage := st.usage ++ [(none, false)] }
  else if c.iColumn = -1 ∧ c.op = .OpEQ then
    { idxNum := 1, cost := 1, argv := st.argv + 1,
      usage := st.usage ++ [(some st.argv, true)] }
  else if (cols.length : Int) ≤ c.iColumn then
    if c.iColumn = (cols.length : Int) ∧ c.op = .OpEQ then
      { st with argv := st.argv + 1, usage := st.usage ++ [(some st.argv, true)] }
    else { st with usage := st.usage ++ [(none, false)] }
  else if hasIndexOn indexes (cols.getD c.iColumn.toNat defaultColumn).name then
    if c.op = .OpEQ then
      { idxNum := 2 + c.iColumn.toNat * 256, cost := 10, argv := st.argv + 1,
        usage := st.usage ++ [(some st.argv, true)] }
    else if isRangeOp c.op then
      { idxNum := if st.idxNum % 256 < 2 then 3 + c.iColumn.toNat * 256 else st.idxNum,
        cost := 100, argv := st.argv + 1,
        usage := st.usage ++ [(some st.argv, false)] }
    else { st with usage := st.usage ++ [(none, false)] }
  else { st with usage := st.usage ++ [(none, false)] }

structure BIResult where
  idxNum : Nat
  cost : Nat
  rows : Nat
  usage : List (Option Nat × Bool)
deriving DecidableEq, Repr

/-- `FlatBufferVTabModule::xBestIndex` (with a store attached, as in
every registered source, so the row estimate is always set). -/
def xBestIndex (cs : List VConstraint) (cols : List ColumnInfo)
    (indexes : List String) (recordCount : Nat) : BIResult :=
  let st := cs.foldl (bestIndexStep cols indexes) ⟨0, 1000000, 1, []⟩
  let strategy := st.idxNum % 256
  { idxNum := st.idxNum
    cost := st.cost
    rows :=
      if strategy = 0 then recordCount
      else if strategy = 1 then 1
      else if strategy = 2 then 10
      else recordCount / 10
    usage := st.usage }

/-- Which constraints update `estimatedCost`, and to what. -/
def costClass (cols : List ColumnInfo) (indexes : List String)
    (c : VConstraint) : Option Nat :=
  if c.usable = false then none
  else if c.iColumn = -1 ∧ c.op = .OpEQ then some 1
  else if (cols.length : Int) ≤ c.iColumn then none
  else if hasIndexOn indexes (cols.getD c.iColumn.toNat defaultColumn).name then
    if c.op = .OpEQ then some 10
    else if isRangeOp c.op then some 100
    else none
  else none

/-- Which constraints get an `argvIndex`, and their `omit` flag. -/
def usageClass (cols : List ColumnInfo) (indexes : List String)
    (c : VConstraint) : Option Bool :=
  if c.usable = false then none
  else if c.iColumn = -1 ∧ c.op = .OpEQ then some true
  else if (cols.length : Int) ≤ c.iColumn then
    if c.iColumn = (cols.length : Int) ∧ c.op = .OpEQ then some true else none
  else if hasIndexOn indexes (cols.getD c.iColumn.toNat defaultColumn).name then
    if c.op = .OpEQ then some true
    else if isRangeOp c.op then some false
    else none
  else none

/-- Valid `idxNum` encodings: low byte is the strategy, high bytes the
column index of an indexed real column for strategies 2 and 3. -/
def ValidEnc (cols : List ColumnInfo) (indexes : List String) (n : Nat) : Prop :=
  n = 0 ∨ n = 1 ∨
  (∃ col, col < cols.length ∧
    hasIndexOn indexes (cols.getD col defaultColumn).name = true ∧
    (n = 2 + col * 256 ∨ n = 3 + col * 256))

theorem bestIndexStep_cost (cols : List ColumnInfo) (indexes : List String)
    (st : BIState) (c : VConstraint) :
    (bestIndexStep cols indexes st c).cost = (costClass cols indexes c).getD st.cost := by
  unfold bestIndexStep costClass
  split_ifs <;> rfl

theorem bestIndexStep_usage (cols : List ColumnInfo) (indexes : List String)
    (st : BIState) (c : VConstraint) :
    (bestIndexStep cols indexes st c).usage =
      st.usage ++ [((usageClass cols indexes c).map (fun _ => st.argv),
        (usageClass cols indexes c).getD false)] := by
  unfold bestIndexStep usageClass
  split_ifs <;> rfl

theorem bestIndexFold_cost (cols : List ColumnInfo) (indexes : List String) :
    ∀ (cs : List VConstraint) (st : BIState),
      (cs.foldl (bestIndexStep cols indexes) st).cost =
        (cs.filterMap (costClass cols indexes)).getLastD st.cost := by
  intro cs
  induction cs with
  | nil => intro st; rfl
  | cons c cs ih =>
    intro st
    rw [List.foldl_cons, ih (bestIndexStep cols indexes st c),
        bestIndexStep_cost cols indexes st c, List.filterMap_cons]
    cases hcc : costClass cols indexes c with
    | none => simp
    | some k =>
      show (List.filterMap (costClass cols indexes) cs).getLastD ((some k).getD st.cost) =
        (k :: List.filterMap (costClass cols indexes) cs).getLastD st.cost
      rw [List.getLastD_cons]
      rfl

theorem bestIndexFold_usage (cols : List ColumnInfo) (indexes : List String) :
    ∀ (cs : List VConstraint) (st : BIState),
      (cs.foldl (bestIndexStep cols indexes) st).usage.map
          (fun u => (u.1.isSome, u.2)) =
        st.usage.map (fun u => (u.1.isSome, u.2)) ++
          cs.map (fun c => ((usageClass cols indexes c).isSome,
            (usageClass cols indexes c).getD false)) := by
  intro cs
  induction cs with
  | nil => intro st; simp
  | cons c cs ih =>
    intro st
    rw [List.foldl_cons, ih (bestIndexStep cols indexes st c),
        bestIndexStep_usage cols indexes st c]
    rw [List.map_append, List.append_assoc]
    congr 1
    cases hcc : usageClass cols indexes c with
    | none => simp [hcc]
    | some om => simp [hcc]

theorem bestIndexFold_enc (cols : List ColumnInfo) (indexes : List String) :
    ∀ (cs : List VConstraint) (st : BIState)
      (hwf : ∀ c ∈ cs, -1 ≤ c.iColumn ∧ (c.iColumn = -1 → c.op = .OpEQ)),
      ValidEnc cols indexes st.idxNum →
      ValidEnc cols indexes (cs.foldl (bestIndexStep cols indexes) st).idxNum := by
  intro cs
  induction cs with
  | nil => intro st _ h; exact h
  | cons c cs ih =>
    intro st hwf h
    rw [List.foldl_cons]
    refine ih (bestIndexStep cols indexes st c)
      (fun d hd => hwf d (by simp [hd])) ?_
    unfold bestIndexStep
    by_cases hu : c.usable = false
    · rw [if_pos hu]; exact h
    · rw [if_neg hu]
      by_cases hrow : c.iColumn = -1 ∧ c.op = .OpEQ
      · rw [if_pos hrow]
        exact Or.inr (Or.inl rfl)
      · rw [if_neg hrow]
        by_cases hvirt : (cols.length : Int) ≤ c.iColumn
        · rw [if_pos hvirt]
          by_cases hsrc : c.iColumn = (cols.length : Int) ∧ c.op = .OpEQ
          · rw [if_pos hsrc]; exact h
          · rw [if_neg hsrc]; exact h
        · rw [if_neg hvirt]
          have hcol : c.iColumn.toNat < cols.length := by
            obtain ⟨hge, himp⟩ := hwf c (by simp)
            by_cases hm1 : c.iColumn = -1
            · exact absurd ⟨hm1, himp hm1⟩ hrow
            · omega
          by_cases hidx : hasIndexOn indexes
              (cols.getD c.iColumn.toNat defaultColumn).name
          · rw [if_pos hidx]
            by_cases heq : c.op = .OpEQ
            · rw [if_pos heq]
              exact Or.inr (Or.inr ⟨c.iColumn.toNat, hcol, hidx, Or.inl rfl⟩)
            · rw [if_neg heq]
              by_cases hrg : isRangeOp c.op
              · rw [if_pos hrg]
                by_cases hcur : st.idxNum % 256 < 2
                · simp only [if_pos hcur]
                  exact Or.inr (Or.inr ⟨c.iColumn.toNat, hcol, hidx, Or.inr rfl⟩)
                · simp only [if_neg hcur]
                  exact h
              · rw [if_neg hrg]; exact h
          · rw [if_neg hidx]; exact h

/-- C7 counterexample: a single usable equality constraint on a
primary-key column with an index still gets `estimatedRows = 10`;
`xBestIndex` has no primary-key special case, contradicting the
claimed "1 estimated row when the column is a primary key". -/
theorem claim_C7_counterexample :
    ¬ (∀ (cs : List VConstraint) (cols : List ColumnInfo) (idxs : List String)
        (rc : Nat),
        (xBestIndex cs cols idxs rc).idxNum % 256 = 2 →
        (cols.getD ((xBestIndex cs cols idxs rc).idxNum / 256)
          defaultColumn).primaryKey = true →
        (xBestIndex cs cols idxs rc).rows = 1) := by
  intro h
  have := h [⟨0, .OpEQ, true⟩] [⟨"id", true⟩] ["id"] 100 (by decide) (by decide)
  exact absurd this (by decide)

/-- C7 amended: `xBestIndex` encodes the strategy in the low byte of
`idxNum` (0 full scan, 1 rowid equality, 2 index equality, 3 index
range) and, for strategies 2/3, an indexed real column's index in the
high bytes; the estimated rows depend only on the final strategy —
full scan: record count, rowid equality: 1, index equality: 10 (with
no primary-key special case), range: record_count/10; the estimated
cost is the table cost (1 rowid-eq / 10 index-eq / 100 range) of the
LAST usable recognized constraint, 1e6 when there is none; equality
constraints on rowid, `_source` or an indexed column are marked omit
and consume an argv slot; range constraints consume an argv slot but
are never marked omit; all other constraints are unused. -/
theorem claim_C7_amended_best_index (cs : List VConstraint)
    (cols : List ColumnInfo) (indexes : List String) (rc : Nat)
    (hwf : ∀ c ∈ cs, -1 ≤ c.iColumn ∧ (c.iColumn = -1 → c.op = .OpEQ)) :
    ((xBestIndex cs cols indexes rc).rows =
      (if (xBestIndex cs cols indexes rc).idxNum % 256 = 0 then rc
       else if (xBestIndex cs cols indexes rc).idxNum % 256 = 1 then 1
       else if (xBestIndex cs cols indexes rc).idxNum % 256 = 2 then 10
       else rc / 10)) ∧
    ((xBestIndex cs cols indexes rc).cost =
      (cs.filterMap (costClass cols indexes)).getLastD 1000000) ∧
    ((xBestIndex cs cols indexes rc).usage.map (fun u => (u.1.isSome, u.2)) =
      cs.map (fun c => ((usageClass cols indexes c).isSome,
        (usageClass cols indexes c).getD false))) ∧
    ValidEnc cols indexes (xBestIndex cs cols indexes rc).idxNum := by
  refine ⟨rfl, ?_, ?_, ?_⟩
  · exact bestIndexFold_cost cols indexes cs ⟨0, 1000000, 1, []⟩
  · have := bestIndexFold_usage cols indexes cs ⟨0, 1000000, 1, []⟩
    simpa using this
  · exact bestIndexFold_enc cols indexes cs ⟨0, 1000000, 1, []⟩ hwf (Or.inl rfl)

theorem claim_C7_amended_best_index_witness :
    (∀ c ∈ [(⟨0, .OpEQ, true⟩ : VConstraint), ⟨0, .OpGE, true⟩],
      -1 ≤ c.iColumn ∧ (c.iColumn = -1 → c.op = .OpEQ)) ∧
    (xBestIndex [⟨0, .OpEQ, true⟩, ⟨0, .OpGE, true⟩]
        [⟨"id", true⟩] ["id"] 100).cost =
      ([(⟨0, .OpEQ, true⟩ : VConstraint), ⟨0, .OpGE, true⟩].filterMap
        (costClass [⟨"id", true⟩] ["id"])).getLastD 1000000 :=
  ⟨by decide,
   (claim_C7_amended_best_index [⟨0, .OpEQ, true⟩, ⟨0, .OpGE, true⟩]
      [⟨"id", true⟩] ["id"] 100 (by decide)).2.1⟩

/-! ### Engine and virtual-table query model (claims C1, C5, C10)

Embeds one registered source (`SourceInfo` / `FlatBufferVTab`) in the
configuration without batch or fast extractors and without encryption.
Two pieces referenced from src/ are declared in headers missing from
src/ and are modelled from the spec (each noted below): the
`SqliteIndex` probe operations (§4.C contract) and the per-file-id
record-info vector (§4.B `record_info_vector`). -/

structure RecInfo where
  offset : Nat
  sequence : Nat
deriving DecidableEq, Repr

/-- One registered source: the catalog entry plus the non-owning
references the cursor reaches (store buffer, sequence map, indexes,
tombstones). -/
structure EngineSource where
  cols : List ColumnInfo
  sourceName : List Nat
  fileRecordInfos : List RecInfo
  tombstones : List Nat
  indexes : List (String × List IndexEntry)
  extractor : Option (List Nat → Nat → String → Value)
  buffer : List Nat
  seqToOff : List (Nat × Nat)

/-- Modelled from the spec: `SqliteIndex::searchFirst` "returns any
one entry with `key`"; the model deterministically returns the first
entry of the index's entry list whose key compares equal. -/
def idxSearchFirst (idx : List IndexEntry) (v : Value) : Option IndexEntry :=
  idx.find? (fun e => compareValues e.key v = 0)

/-- Modelled from the spec: `SqliteIndex::search` "returns all entries
with an exactly equal key in unspecified but deterministic order" —
here, the entry-list order. -/
def idxSearch (idx : List IndexEntry) (v : Value) : List IndexEntry :=
  idx.filter (fun e => compareValues e.key v = 0)

/-- Modelled from the spec: `SqliteIndex::all` returns every entry (in
ascending key order; the model's entry list is kept in the order
`all()` exposes, which the tombstone claims do not depend on). -/
def idxAll (idx : List IndexEntry) : List IndexEntry := idx

def findIndex (s : EngineSource) (col : String) : Option (List IndexEntry) :=
  (s.indexes.find? (fun p => p.1 = col)).map (fun p => p.2)

/-- The inline size-prefix read at a record offset (`readLE32` of the
4 bytes at `info.offset`). -/
def sizeAt (buffer : List Nat) (off : Nat) : Nat := readLE32At buffer off

def payloadAt (buffer : List Nat) (off : Nat) : List Nat :=
  (buffer.drop (off + 4)).take (sizeAt buffer off)

/-- `getDataAtOffset` against the raw buffer (`writeOffset` is the
buffer length in the live-prefix model). -/
def bufDataAtOffset (buffer : List Nat) (off : Nat) : Option (List Nat) :=
  if off + 4 > buffer.length then none
  else if off + 4 + sizeAt buffer off > buffer.length then none
  else some (payloadAt buffer off)

/-- Real-column extraction: per-column extractor if installed, SQL
NULL otherwise (`xColumn`'s `if (!vtab->extractor) result_null`, and
the fast path's null fill). -/
def extractCols (s : EngineSource) (payload : List Nat) (len : Nat) : List Value :=
  s.cols.map (fun c =>
    match s.extractor with
    | some f => f payload len c.name
    | none => .VNull)

/-- A row as the virtual-table path produces it via `xColumn`: real
columns, then `_source`, `_rowid` (the sequence), `_offset`, and
`_data` (the raw payload blob when `currentLength > 0`, else NULL). -/
def vtabRow (s : EngineSource) (off seq : Nat) (payload : List Nat) (len : Nat) :
    List Value :=
  extractCols s payload len ++
    [.VStr s.sourceName, .VI64 (seq : Int), .VI64 (off : Int),
     if 0 < len then .VBytes payload else .VNull]

/-- A row as `tryFastPath` assembles it: identical except `_data`,
which the fast path always fills with NULL ("null for performance"). -/
def fastRow (s : EngineSource) (off seq : Nat) (payload : List Nat) (len : Nat) :
    List Value :=
  extractCols s payload len ++
    [.VStr s.sourceName, .VI64 (seq : Int), .VI64 (off : Int), .VNull]

def notTombstoned (s : EngineSource) (seq : Nat) : Bool :=
  ¬ s.tombstones.contains seq

/-- Virtual-table full scan (`xFilter` strategy 0 + the `xNext` loop):
every non-tombstoned record of the file's record-info vector, in
order, read inline from the buffer. -/
def vtabScanRows (s : EngineSource) : List (List Value) :=
  (s.fileRecordInfos.filter (fun i => notTombstoned s i.sequence)).map
    (fun i => vtabRow s i.offset i.sequence (payloadAt s.buffer i.offset)
      (sizeAt s.buffer i.offset))

/-- Cursor stepping over index results (`xFilter` seeding + `xNext`):
a failed `getDataAtOffset` marks EOF, truncating the remainder. -/
def rowsFromEntries (s : EngineSource) : List IndexEntry → List (List Value)
  | [] => []
  | e :: rest =>
    match bufDataAtOffset s.buffer e.dataOffset with
    | none => []
    | some payload =>
      vtabRow s e.dataOffset e.sequence payload (sizeAt s.buffer e.dataOffset) ::
        rowsFromEntries s rest

/-- Virtual-table rowid lookup (`xFilter` strategy 1). -/
def vtabRowidRows (s : EngineSource) (rowid : Nat) : List (List Value) :=
  if s.tombstones.contains rowid then []
  else
    match mapFind s.seqToOff rowid with
    | none => []
    | some off =>
      match bufDataAtOffset s.buffer off with
      | none => []
      | some payload => [vtabRow s off rowid payload (sizeAt s.buffer off)]

/-- Virtual-table index equality (`xFilter` strategy 2): single-result
path for a primary-key column, otherwise `search` with eager tombstone
filtering. -/
def vtabEqRows (s : EngineSource) (colIdx : Nat) (v : Value) : List (List Value) :=
  match findIndex s (s.cols.getD colIdx defaultColumn).name with
  | none => []
  | some idx =>
    match (if (s.cols.getD colIdx defaultColumn).primaryKey then
        idxSearchFirst idx v else none) with
    | some e =>
      if s.tombstones.contains e.sequence then []
      else
        match bufDataAtOffset s.buffer e.dataOffset with
        | none => []
        | some payload =>
          [vtabRow s e.dataOffset e.sequence payload (sizeAt s.buffer e.dataOffset)]
    | none =>
      rowsFromEntries s ((idxSearch idx v).filter (fun e => notTombstoned s e.sequence))

/-- Virtual-table index range (`xFilter` strategy 3): `all()` with
tombstones filtered; SQLite re-checks the (non-omitted) bound
predicate on each produced row, which can only drop further rows. -/
def vtabRangeRows (s : EngineSource) (colIdx : Nat) : List (List Value) :=
  match findIndex s (s.cols.getD colIdx defaultColumn).name with
  | none => []
  | some idx =>
    rowsFromEntries s ((idxAll idx).filter (fun e => notTombstoned s e.sequence))

/-- `tryFastPath`, full-scan shape (`SELECT * FROM T`): applicable
only when the plain extractor is installed; `none` means the query
falls through to the executor. -/
def fastScanRows (s : EngineSource) : Option (List (List Value)) :=
  match s.extractor with
  | none => none
  | some _ =>
    some ((s.fileRecordInfos.filter (fun i => notTombstoned s i.sequence)).map
      (fun i => fastRow s i.offset i.sequence (payloadAt s.buffer i.offset)
        (sizeAt s.buffer i.offset)))

/-- `tryFastPath`, point shape (`SELECT * FROM T WHERE C = ?`):
`searchFirst`, tombstone check, then one row (or zero rows when the
lookup misses); `none` falls through to the executor. -/
def fastPointRows (s : EngineSource) (colName : String) (v : Value) :
    Option (List (List Value)) :=
  match findIndex s colName with
  | none => none
  | some idx =>
    match idxSearchFirst idx v with
    | none => some []
    | some e =>
      if s.tombstones.contains e.sequence then some []
      else
        match bufDataAtOffset s.buffer e.dataOffset with
        | none => none
        | some payload =>
          some [fastRow s e.dataOffset e.sequence payload (sizeAt s.buffer e.dataOffset)]

/-- `SQLiteEngine::markDeleted`: insert into the source's tombstone
set (membership is what the set exposes). -/
def EngineSource.markDeleted (s : EngineSource) (seq : Nat) : EngineSource :=
  { s with tombstones := s.tombstones ++ [seq] }

/-- `SQLiteEngine::clearTombstones`. -/
def EngineSource.clearTombstones (s : EngineSource) : EngineSource :=
  { s with tombstones := [] }

/-- The `_rowid` cell of a produced row. -/
def rowRowid (s : EngineSource) (r : List Value) : Value :=
  r.getD (s.cols.length + 1) .VNull

lemma extractCols_length (s : EngineSource) (payload : List Nat) (len : Nat) :
    (extractCols s payload len).length = s.cols.length := by
  simp [extractCols]

lemma set_after4 (l : List Value) (a b c d x : Value) :
    (l ++ [a, b, c, d]).set (l.length + 3) x = l ++ [a, b, c, x] := by
  induction l with
  | nil => rfl
  | cons y t ih =>
    show y :: ((t ++ [a, b, c, d]).set (t.length + 3) x) = y :: (t ++ [a, b, c, x])
    exact congrArg _ ih

lemma getD_after1 (l : List Value) (a b c d : Value) :
    (l ++ [a, b, c, d]).getD (l.length + 1) .VNull = b := by
  induction l with
  | nil => rfl
  | cons y t ih => exact ih

lemma vtabRow_set_data (s : EngineSource) (off seq : Nat) (payload : List Nat)
    (len : Nat) :
    (vtabRow s off seq payload len).set (s.cols.length + 3) .VNull =
      fastRow s off seq payload len := by
  unfold vtabRow fastRow
  have h := set_after4 (extractCols s payload len) (.VStr s.sourceName)
    (.VI64 (seq : Int)) (.VI64 (off : Int))
    (if 0 < len then .VBytes payload else .VNull) .VNull
  rw [extractCols_length] at h
  exact h

lemma rowRowid_vtabRow (s : EngineSource) (off seq : Nat) (payload : List Nat)
    (len : Nat) :
    rowRowid s (vtabRow s off seq payload len) = .VI64 (seq : Int) := by
  unfold rowRowid vtabRow
  have h := getD_after1 (extractCols s payload len) (.VStr s.sourceName)
    (.VI64 (seq : Int)) (.VI64 (off : Int))
    (if 0 < len then .VBytes payload else .VNull)
  rw [extractCols_length] at h
  exact h

lemma rowRowid_fastRow (s : EngineSource) (off seq : Nat) (payload : List Nat)
    (len : Nat) :
    rowRowid s (fastRow s off seq payload len) = .VI64 (seq : Int) := by
  unfold rowRowid fastRow
  have h := getD_after1 (extractCols s payload len) (.VStr s.sourceName)
    (.VI64 (seq : Int)) (.VI64 (off : Int)) .VNull
  rw [extractCols_length] at h
  exact h

lemma rowRowid_rowsFromEntries (s : EngineSource) (es : List IndexEntry)
    (r : List Value) (hr : r ∈ rowsFromEntries s es) :
    ∃ e ∈ es, rowRowid s r = .VI64 (e.sequence : Int) := by
  induction es with
  | nil => simp [rowsFromEntries] at hr
  | cons e t ih =>
    unfold rowsFromEntries at hr
    cases hbd : bufDataAtOffset s.buffer e.dataOffset with
    | none => rw [hbd] at hr; simp at hr
    | some p =>
      rw [hbd] at hr
      rcases List.mem_cons.mp hr with hr | hr
      · exact ⟨e, List.mem_cons_self e t, by rw [hr, rowRowid_vtabRow]⟩
      · obtain ⟨e', he', hx⟩ := ih hr
        exact ⟨e', List.mem_cons_of_mem e he', hx⟩

lemma notTombstoned_markDeleted (s : EngineSource) (seq q : Nat)
    (h : notTombstoned (s.markDeleted seq) q = true) : q ≠ seq := by
  unfold notTombstoned EngineSource.markDeleted at h
  simp at h
  exact fun he => h.2 he

/-- One primary-key source with one stored record, payload `[9,9,9,9]`. -/
def cexC1Scan : EngineSource :=
  { cols := [⟨"x", true⟩]
    sourceName := [84]
    fileRecordInfos := [⟨0, 1⟩]
    tombstones := []
    indexes := [("x", [⟨.VI64 7, 0, 4, 1⟩])]
    extractor := some (fun _ _ _ => .VI64 7)
    buffer := [4, 0, 0, 0, 9, 9, 9, 9]
    seqToOff := [(1, 0)] }

lemma rowid_ne_of_notTombstoned (s : EngineSource) (seq q : Nat)
    (h : notTombstoned (s.markDeleted seq) q = true) :
    Value.VI64 (q : Int) ≠ Value.VI64 (seq : Int) := by
  intro he
  have : (q : Int) = (seq : Int) := by injection he
  exact notTombstoned_markDeleted s seq q h (by exact_mod_cast this)

/-- C5: after `markDeleted(seq)` neither query path produces a row
whose `_rowid` is `seq` — for the virtual-table full scan, index
equality, index range and rowid strategies and both fast-path shapes —
and when the tombstone set started empty, `clearTombstones` restores
the source state exactly, so every query returns its pre-deletion
rows (hidden rows reappear). -/
theorem claim_C5_tombstone_hiding (s : EngineSource) (seq : Nat) (colIdx : Nat)
    (colName : String) (v : Value) (rowid : Nat) :
    (∀ r ∈ vtabScanRows (s.markDeleted seq),
      rowRowid (s.markDeleted seq) r ≠ .VI64 (seq : Int)) ∧
    (∀ r ∈ vtabEqRows (s.markDeleted seq) colIdx v,
      rowRowid (s.markDeleted seq) r ≠ .VI64 (seq : Int)) ∧
    (∀ r ∈ vtabRangeRows (s.markDeleted seq) colIdx,
      rowRowid (s.markDeleted seq) r ≠ .VI64 (seq : Int)) ∧
    (∀ r ∈ vtabRowidRows (s.markDeleted seq) rowid,
      rowRowid (s.markDeleted seq) r ≠ .VI64 (seq : Int)) ∧
    (∀ rows, fastScanRows (s.markDeleted seq) = some rows →
      ∀ r ∈ rows, rowRowid (s.markDeleted seq) r ≠ .VI64 (seq : Int)) ∧
    (∀ rows, fastPointRows (s.markDeleted seq) colName v = some rows →
      ∀ r ∈ rows, rowRowid (s.markDeleted seq) r ≠ .VI64 (seq : Int)) ∧
    (s.tombstones = [] →
      (s.markDeleted seq).clearTombstones = s ∧
      vtabScanRows ((s.markDeleted seq).clearTombstones) = vtabScanRows s ∧
      vtabEqRows ((s.markDeleted seq).clearTombstones) colIdx v =
        vtabEqRows s colIdx v) := by
  set m := s.markDeleted seq with hm
  have hmcols : m.cols = s.cols := rfl
  refine ⟨?_, ?_, ?_, ?_, ?_, ?_, ?_⟩
  · intro r hr
    obtain ⟨i, hi, hri⟩ := List.mem_map.mp hr
    obtain ⟨_, hnt⟩ := List.mem_filter.mp hi
    rw [← hri, rowRowid_vtabRow]
    exact rowid_ne_of_notTombstoned s seq i.sequence hnt
  · intro r hr
    unfold vtabEqRows at hr
    cases hidx : findIndex m (m.cols.getD colIdx defaultColumn).name with
    | none => rw [hidx] at hr; simp at hr
    | some idx =>
      rw [hidx] at hr
      dsimp only at hr
      cases hpk : (if (m.cols.getD colIdx defaultColumn).primaryKey then
          idxSearchFirst idx v else none) with
      | some e =>
        rw [hpk] at hr
        cases htomb : m.tombstones.contains e.sequence with
        | true => simp only [htomb, eq_self_iff_true, if_true] at hr; simp at hr
        | false =>
          simp only [htomb, Bool.false_eq_true, if_false] at hr
          cases hbd : bufDataAtOffset m.buffer e.dataOffset with
          | none => rw [hbd] at hr; simp at hr
          | some payload =>
            rw [hbd] at hr
            rcases List.mem_singleton.mp hr with hre
            rw [hre, rowRowid_vtabRow]
            refine rowid_ne_of_notTombstoned s seq e.sequence ?_
            unfold notTombstoned
            rw [htomb]
            decide
      | none =>
        rw [hpk] at hr
        obtain ⟨e, he, hx⟩ := rowRowid_rowsFromEntries m _ r hr
        obtain ⟨_, hnt⟩ := List.mem_filter.mp he
        rw [hx]
        exact rowid_ne_of_notTombstoned s seq e.sequence hnt
  · intro r hr
    unfold vtabRangeRows at hr
    cases hidx : findIndex m (m.cols.getD colIdx defaultColumn).name with
    | none => rw [hidx] at hr; simp at hr
    | some idx =>
      rw [hidx] at hr
      dsimp only at hr
      obtain ⟨e, he, hx⟩ := rowRowid_rowsFromEntries m _ r hr
      obtain ⟨_, hnt⟩ := List.mem_filter.mp he
      rw [hx]
      exact rowid_ne_of_notTombstoned s seq e.sequence hnt
  · intro r hr
    unfold vtabRowidRows at hr
    cases htomb : m.tombstones.contains rowid with
    | true => simp only [htomb, eq_self_iff_true, if_true] at hr; simp at hr
    | false =>
      simp only [htomb, Bool.false_eq_true, if_false] at hr
      cases hoff : mapFind m.seqToOff rowid with
      | none => rw [hoff] at hr; simp at hr
      | some off =>
        rw [hoff] at hr
        dsimp only at hr
        cases hbd : bufDataAtOffset m.buffer off with
        | none => rw [hbd] at hr; simp at hr
        | some payload =>
          rw [hbd] at hr
          rcases List.mem_singleton.mp hr with hre
          rw [hre, rowRowid_vtabRow]
          refine rowid_ne_of_notTombstoned s seq rowid ?_
          unfold notTombstoned
          rw [htomb]
          decide
  · intro rows hrows r hr
    unfold fastScanRows at hrows
    cases hext : m.extractor with
    | none => rw [hext] at hrows; simp at hrows
    | some f =>
      rw [hext] at hrows
      simp only [Option.some.injEq] at hrows
      rw [← hrows] at hr
      obtain ⟨i, hi, hri⟩ := List.mem_map.mp hr
      obtain ⟨_, hnt⟩ := List.mem_filter.mp hi
      rw [← hri, rowRowid_fastRow]
      exact rowid_ne_of_notTombstoned s seq i.sequence hnt
  · intro rows hrows r hr
    unfold fastPointRows at hrows
    cases hidx : findIndex m colName with
    | none => rw [hidx] at hrows; simp at hrows
    | some idx =>
      rw [hidx] at hrows
      cases hsf : idxSearchFirst idx v with
      | none =>
        simp only [hsf, Option.some.injEq] at hrows
        rw [← hrows] at hr
        simp at hr
      | some e =>
        cases htomb : m.tombstones.contains e.sequence with
        | true =>
          simp only [hsf, htomb, eq_self_iff_true, if_true,
            Option.some.injEq] at hrows
          rw [← hrows] at hr
          simp at hr
        | false =>
          cases hbd : bufDataAtOffset m.buffer e.dataOffset with
          | none =>
            simp only [hsf, htomb, Bool.false_eq_true, if_false, hbd] at hrows
            exact Option.noConfusion hrows
          | some payload =>
            simp only [hsf, htomb, Bool.false_eq_true, if_false, hbd,
              Option.some.injEq] at hrows
            rw [← hrows] at hr
            rcases List.mem_singleton.mp hr with hre
            rw [hre, rowRowid_fastRow]
            refine rowid_ne_of_notTombstoned s seq e.sequence ?_
            unfold notTombstoned
            rw [htomb]
            decide
  · intro hnil
    have hclear : (s.markDeleted seq).clearTombstones = s := by
      cases s
      simp only [EngineSource.markDeleted, EngineSource.clearTombstones] at hnil ⊢
      simp [hnil]
    exact ⟨hclear, by rw [hclear], by rw [hclear]⟩

/-- Instantiation of C5 on the one-record source: the full scan after
deleting sequence 1 yields nothing, and clearing tombstones restores
the original single-row scan. -/
theorem claim_C5_tombstone_hiding_witness :
    (∀ r ∈ vtabScanRows (cexC1Scan.markDeleted 1),
      rowRowid (cexC1Scan.markDeleted 1) r ≠ .VI64 (1 : Int)) ∧
    vtabScanRows ((cexC1Scan.markDeleted 1).clearTombstones) =
      vtabScanRows cexC1Scan ∧
    vtabScanRows (cexC1Scan.markDeleted 1) = [] ∧
    (vtabScanRows cexC1Scan).length = 1 := by
  obtain ⟨h1, _, _, _, _, _, h7⟩ :=
    claim_C5_tombstone_hiding cexC1Scan 1 0 "x" (.VI64 7) 1
  exact ⟨h1, (h7 rfl).2.1, by decide, by decide⟩

/-! ### TableStore ingest (claim C10) -/

/-- The per-table state `TableStore::onIngest` mutates: the record
counter, the record-info vector and the per-column indexes, plus the
optional field extractor. -/
structure TableState where
  recordCount : Nat
  recordInfos : List RecInfo
  indexes : List (String × List IndexEntry)
  extractor : Option (List Nat → Nat → String → Value)

/-- `TableStore::onIngest`: count and record the arrival, then index
each indexed column — but only when a field extractor is installed. -/
def onIngest (t : TableState) (payload : List Nat) (len seq off : Nat) : TableState :=
  let t1 := { t with recordCount := t.recordCount + 1
                     recordInfos := t.recordInfos ++ [⟨off, seq⟩] }
  match t.extractor with
  | none => t1
  | some f =>
    { t1 with indexes :=
        t1.indexes.map (fun p => (p.1, p.2 ++ [⟨f payload len p.1, off, len, seq⟩])) }

/-- A one-record, no-extractor source for the C10 witness. -/
def cexC10Src : EngineSource :=
  { cols := [⟨"x", false⟩, ⟨"y", false⟩]
    sourceName := [78]
    fileRecordInfos := [⟨0, 1⟩]
    tombstones := []
    indexes := []
    extractor := none
    buffer := [4, 0, 0, 0, 9, 9, 9, 9]
    seqToOff := [(1, 0)] }

/-- C10: with no field extractor installed, `onIngest` still counts
the record and appends its record info while leaving every index
untouched, and a full scan through the virtual table still yields one
row per non-tombstoned record in which every schema-declared column is
SQL NULL while `_source`, `_rowid`, `_offset` and `_data` carry the
source name, the sequence, the offset and the raw payload (records
have a positive inline size). -/
theorem claim_C10_no_extractor_tables (t : TableState) (payload : List Nat)
    (len seq off : Nat) (s : EngineSource) :
    (t.extractor = none →
      (onIngest t payload len seq off).recordCount = t.recordCount + 1 ∧
      (onIngest t payload len seq off).recordInfos = t.recordInfos ++ [⟨off, seq⟩] ∧
      (onIngest t payload len seq off).indexes = t.indexes) ∧
    (s.extractor = none →
      (∀ i ∈ s.fileRecordInfos, 0 < sizeAt s.buffer i.offset) →
      vtabScanRows s =
        (s.fileRecordInfos.filter (fun i => notTombstoned s i.sequence)).map
          (fun i => (s.cols.map (fun _ => Value.VNull)) ++
            [.VStr s.sourceName, .VI64 (i.sequence : Int), .VI64 (i.offset : Int),
             .VBytes (payloadAt s.buffer i.offset)])) := by
  constructor
  · intro hext
    unfold onIngest
    rw [hext]
    exact ⟨rfl, rfl, rfl⟩
  · intro hext hsz
    unfold vtabScanRows
    refine List.map_congr_left (fun i hi => ?_)
    have hipos : 0 < sizeAt s.buffer i.offset :=
      hsz i (List.mem_filter.mp hi).1
    unfold vtabRow extractCols
    rw [hext, if_pos hipos]

/-- Instantiation of C10: on the two-column no-extractor source the
scan produces exactly one row — both real columns NULL, virtuals
filled — and `onIngest` without an extractor counts but does not
index. -/
theorem claim_C10_no_extractor_tables_witness :
    vtabScanRows cexC10Src =
      [[Value.VNull, Value.VNull, .VStr [78], .VI64 1, .VI64 0,
        .VBytes [9, 9, 9, 9]]] ∧
    (onIngest ⟨0, [], [("x", [])], none⟩ [9, 9, 9, 9] 4 1 0).recordCount = 1 ∧
    (onIngest ⟨0, [], [("x", [])], none⟩ [9, 9, 9, 9] 4 1 0).indexes =
      [("x", [])] := by
  obtain ⟨h1, h2⟩ := claim_C10_no_extractor_tables
    (⟨0, [], [("x", [])], none⟩ : TableState) [9, 9, 9, 9] 4 1 0 cexC10Src
  refine ⟨?_, (h1 rfl).1, (h1 rfl).2.2⟩
  rw [h2 rfl (by decide)]
  decide

end FlatSQL
